import Mathlib

/-!
Shallow embedding of `easyxml.py` (class `EasyXML`): a fluent in-memory XML
builder.  Python object identity and mutation are modelled by an arena of
nodes addressed by natural-number ids; every `EasyXML` instance created by the
program corresponds to one arena slot, and `is`-style identity tests on
objects become equality of ids.
-/

set_option maxHeartbeats 1000000
set_option maxRecDepth 4000

/-- Attribute values passed as Python keyword arguments; `pyStr` is `str()`. -/
inductive PyVal where
  | str (s : String)
  | int (i : Int)
deriving DecidableEq, Repr

/-- Python `str()` on an attribute value (easyxml.py line 129 applies it). -/
def PyVal.pyStr : PyVal → String
  | .str t => t
  | .int i => toString i

/-- One `EasyXML` object (easyxml.py lines 61-65): the five instance fields
`_name`, `_parent`, `_elements`, `_attributes`, `_element_map`.  `parent` and
map values are arena ids; `elements` is the ordered child list. -/
structure Node where
  name : String
  parent : Option Nat
  elements : List Nat
  attributes : List (String × PyVal)
  element_map : List (String × Nat)
deriving DecidableEq, Repr

instance : Inhabited Node := ⟨⟨"", none, [], [], []⟩⟩

/-- The arena of all `EasyXML` objects allocated so far; ids are positions. -/
structure State where
  nodes : List Node
deriving DecidableEq, Repr

def State.len (s : State) : Nat := s.nodes.length

def State.get (s : State) (i : Nat) : Node := s.nodes.getD i default

def State.set (s : State) (i : Nat) (n : Node) : State := ⟨s.nodes.set i n⟩

def State.push (s : State) (n : Node) : State := ⟨s.nodes ++ [n]⟩

/-- Python dict lookup on the `_element_map` association list. -/
def dictLookup : List (String × Nat) → String → Option Nat
  | [], _ => none
  | (k, v) :: rest, k' => if k = k' then some v else dictLookup rest k'

/-- Python dict assignment `m[k] = v`: overwrite in place, else append. -/
def dictSet : List (String × Nat) → String → Nat → List (String × Nat)
  | [], k, v => [(k, v)]
  | (k', v') :: rest, k, v =>
    if k' = k then (k, v) :: rest else (k', v') :: dictSet rest k v

/-- Python `m.values()`. -/
def dictValues (m : List (String × Nat)) : List Nat := m.map Prod.snd

namespace EasyXML

/-- Constructor `EasyXML.__init__` (easyxml.py lines 54-65): a fresh root
arena holding the single parentless node. -/
def init (name : String) : State := ⟨[⟨name, none, [], [], []⟩]⟩

/-- Result of Python attribute access on an `EasyXML` object: either the
object's own internal state (names starting with an underscore, line 75-76)
or a child node reference. -/
inductive AttrRef where
  | internal : AttrRef
  | child (id : Nat) : AttrRef
deriving DecidableEq, Repr

/-- Child branch of `EasyXML.__getattr__` (easyxml.py lines 77-81): return
the mapped element if present, else allocate a fresh unattached cursor whose
parent is `self`. -/
def getattrChild (s : State) (self : Nat) (nm : String) : State × Nat :=
  match dictLookup (s.get self).element_map nm with
  | some e => (s, e)
  | none => (s.push ⟨nm, some self, [], [], []⟩, s.len)

/-- Python `name.startswith('_')` for the one-character literal on
easyxml.py line 75: the first character is an underscore. -/
def underscoreFirst (nm : String) : Bool :=
  match nm.data with
  | [] => false
  | c :: _ => c == '_'

/-- Full `EasyXML.__getattr__` (easyxml.py lines 67-81) including the
underscore escape hatch on lines 75-76. -/
def getattr (s : State) (self : Nat) (nm : String) : State × AttrRef :=
  if underscoreFirst nm then (s, AttrRef.internal)
  else
    let r := getattrChild s self nm
    (r.1, AttrRef.child r.2)

/-- The `while` loop of `EasyXML.__call__` (easyxml.py lines 117-120),
written with explicit fuel: while `e` has a parent and `e` is not among the
parent's `_element_map.values()`, append `e` to the parent's `_elements`,
store it in the parent's `_element_map` under its name, and move up. -/
def attachLoop : Nat → State → Nat → State
  | 0, s, _ => s
  | fuel + 1, s, e =>
    match (s.get e).parent with
    | none => s
    | some p =>
      if e ∈ dictValues (s.get p).element_map then s
      else
        let pn := s.get p
        attachLoop fuel
          (s.set p { pn with
            elements := pn.elements ++ [e],
            element_map := dictSet pn.element_map (s.get e).name e }) p

/-- Commit `EasyXML.__call__` (easyxml.py lines 83-120): build a fresh node
with `self`'s name, `self`'s parent and the keyword attributes, then run the
upward attach loop.  The fuel `s1.len` dominates the id-decreasing parent
chain of any state reachable through the public operations. -/
def call (s : State) (self : Nat) (kw : List (String × PyVal)) : State :=
  let sn := s.get self
  let s1 := s.push ⟨sn.name, sn.parent, [], kw, []⟩
  attachLoop s1.len s1 s.len

end EasyXML

/-- Per-character XML escaping of attribute values as done by
`xml.dom.minidom._write_data` when `__str__` serializes. -/
def escChar (c : Char) : List Char :=
  if c = '&' then "&amp;".data
  else if c = '<' then "&lt;".data
  else if c = '"' then "&quot;".data
  else if c = '>' then "&gt;".data
  else [c]

def xmlEscape (t : String) : String := String.mk (t.data.map escChar).flatten

/-- Rendering of the attribute list inside a start tag, in insertion order,
as `minidom.Element.writexml` does after the `setAttribute` calls made by
`to_xml` (easyxml.py lines 128-129). -/
def renderAttrs : List (String × PyVal) → String
  | [] => ""
  | (k, v) :: rest =>
      " " ++ k ++ "=\"" ++ xmlEscape v.pyStr ++ "\"" ++ renderAttrs rest

/-- Pretty-printed element text produced by `minidom.Element.writexml` with
`addindent = "  "`, `newl = "\n"` for the DOM built by `to_xml`
(easyxml.py lines 126-136): childless nodes are self-closing, others wrap
their children, one line per tag, indent growing by two spaces. -/
def prettyNode (s : State) : Nat → Nat → String → String
  | 0, _, _ => ""
  | fuel + 1, id, ind =>
    let n := s.get id
    if n.elements.isEmpty then
      ind ++ "<" ++ n.name ++ renderAttrs n.attributes ++ "/>\n"
    else
      ind ++ "<" ++ n.name ++ renderAttrs n.attributes ++ ">\n"
        ++ String.join (n.elements.map (fun e => prettyNode s fuel e (ind ++ "  ")))
        ++ ind ++ "</" ++ n.name ++ ">\n"

/-- Header line written by `minidom.Document.writexml` before the root
element when `toprettyxml` runs. -/
def headerLine : String := "<?xml version=\"1.0\" ?>\n"

/-- Index of the last `?>` digram lying entirely before the first newline:
the greedy extent of `.*\?>` in the regex on easyxml.py line 136 (`.` does
not cross a newline). -/
def lastPQ : List Char → Option Nat
  | [] => none
  | [_] => none
  | c1 :: c2 :: rest =>
    if c1 = '\n' then none
    else
      match lastPQ (c2 :: rest) with
      | some i => some (i + 1)
      | none => if c1 = '?' ∧ c2 = '>' then some 0 else none

/-- Model of `re.sub(r'<\?xml.*\?>', '', text)` on easyxml.py line 136,
with explicit fuel so the recursion is structural: scan left to right; at an
occurrence of `<?xml` with some `?>` later on the same line, delete through
the last such `?>` and resume after it.  Every step consumes at least one
character, so fuel equal to the length never runs out. -/
def reSubF : Nat → List Char → List Char
  | 0, cs => cs
  | _ + 1, [] => []
  | fuel + 1, c :: rest =>
    if ("<?xml".data).isPrefixOf (c :: rest) then
      match lastPQ (List.drop 5 (c :: rest)) with
      | some j => reSubF fuel (List.drop (j + 2) (List.drop 5 (c :: rest)))
      | none => c :: reSubF fuel rest
    else c :: reSubF fuel rest

def reSubAux (cs : List Char) : List Char := reSubF cs.length cs

/-- Python `str.isspace` characters relevant to `str.strip()`. -/
def isWs (c : Char) : Bool :=
  c == ' ' || c == '\t' || c == '\n' || c == '\r' || c == '\x0b' || c == '\x0c'

/-- Python `str.strip()`. -/
def pyStripL (cs : List Char) : List Char :=
  ((cs.dropWhile isWs).reverse.dropWhile isWs).reverse

def pyStrip (t : String) : String := String.mk (pyStripL t.data)

/-- Serializer `EasyXML.__str__` (easyxml.py lines 122-136): build the DOM,
pretty-print it (header line plus indented element text), delete the
`<?xml ... ?>` header with `re.sub` and strip surrounding whitespace. -/
def EasyXML.str (s : State) (root : Nat) : String :=
  pyStrip (String.mk (reSubAux (headerLine.data ++ (prettyNode s s.len root "").data)))

/-- Chained child access `node.n1.n2...nk` (each step easyxml.py lines
77-81), as performed when a dotted path is written before a commit. -/
def EasyXML.getattrChain : State → Nat → List String → State × Nat
  | s, id, [] => (s, id)
  | s, id, nm :: rest =>
    let r := EasyXML.getattrChild s id nm
    EasyXML.getattrChain r.1 r.2 rest

/-- Full commit of a dotted path: resolve the chain, then invoke it with the
given keyword attributes (`root.n1...nk(kw)`). -/
def EasyXML.commitPath (s : State) (root : Nat) (path : List String)
    (kw : List (String × PyVal)) : State :=
  let r := EasyXML.getattrChain s root path
  EasyXML.call r.1 r.2 kw

/-- Sequence of commits of the same path, one per attribute list, oldest
first. -/
def EasyXML.commitSeq (s : State) (root : Nat) (path : List String) :
    List (List (String × PyVal)) → State
  | [] => s
  | kw :: rest => EasyXML.commitSeq (EasyXML.commitPath s root path kw) root path rest

/-- Scenario state for the repeated-path example: a fresh root `root`, then
`root.a.b.c(x=1)`, then `root.a.b.c(x=2)`. -/
def c1State : State :=
  EasyXML.commitPath
    (EasyXML.commitPath (EasyXML.init "root") 0 ["a", "b", "c"] [("x", .int 1)])
    0 ["a", "b", "c"] [("x", .int 2)]

/-- Scenario state for committing attributes directly on a fresh root:
`books = EasyXML('books'); books(title='X')`. -/
def c3State : State :=
  EasyXML.call (EasyXML.init "books") 0 [("title", PyVal.str "X")]

/-- Absence of the character `?`, the only character of user data that can
interact with the header-stripping regex of easyxml.py line 136. -/
def NoQ (t : String) : Prop := '?' ∉ t.data

instance (t : String) : Decidable (NoQ t) := by unfold NoQ; infer_instance

/-- Cleanliness of a whole arena: no node name, attribute key or stringified
attribute value contains `?`. -/
def CleanState (s : State) : Prop :=
  ∀ n ∈ s.nodes, NoQ n.name ∧ ∀ kv ∈ n.attributes, NoQ kv.1 ∧ NoQ kv.2.pyStr

instance (s : State) : Decidable (CleanState s) := by unfold CleanState; infer_instance

/-- Indent text for a nesting depth, per the spec: a fixed two-space indent
unit repeated once per level. -/
def specIndent : Nat → String
  | 0 => ""
  | d + 1 => "  " ++ specIndent d

/-- Attribute text per the spec: all attributes in the insertion order of
the mapping supplied at commit, each value converted to its string form
(escaping is delegated to the markup collaborator). -/
def specAttrText : List (String × PyVal) → String
  | [] => ""
  | (k, v) :: rest => " " ++ k ++ "=\"" ++ xmlEscape v.pyStr ++ "\"" ++ specAttrText rest

/-- Serialization contract of the spec, transcribed from its words: a
depth-first pre-order rendering; each node produces a start tag with its
name and all attributes, then its children in their stored order, then an
end tag (self-closing form if childless); indented two spaces per nesting
depth and newline-separated. -/
def specRenderNode (s : State) : Nat → Nat → Nat → String
  | 0, _, _ => ""
  | fuel + 1, id, depth =>
    let n := s.get id
    if n.elements.isEmpty then
      specIndent depth ++ "<" ++ n.name ++ specAttrText n.attributes ++ "/>\n"
    else
      specIndent depth ++ "<" ++ n.name ++ specAttrText n.attributes ++ ">\n"
        ++ String.join (n.elements.map (fun e => specRenderNode s fuel e (depth + 1)))
        ++ specIndent depth ++ "</" ++ n.name ++ ">\n"

/-- Whole-tree serialization per the spec: the pre-order rendering, with any
leading processing-instruction header stripped (the rendering emits none)
and leading/trailing whitespace trimmed. -/
def specSerialize (s : State) (root : Nat) : String :=
  pyStrip (specRenderNode s s.len root 0)

/-- States reachable through the public surface of the class: construct a
root, access an attribute of a held object (easyxml.py lines 67-81, possibly
allocating a cursor), or invoke a held object with keyword attributes
(easyxml.py lines 83-120). -/
inductive Reachable : State → Prop where
  | init (nm : String) : Reachable (EasyXML.init nm)
  | access (s : State) (id : Nat) (nm : String) :
      Reachable s → id < s.len → Reachable (EasyXML.getattr s id nm).1
  | commit (s : State) (id : Nat) (kw : List (String × PyVal)) :
      Reachable s → id < s.len → Reachable (EasyXML.call s id kw)

/-- The most recently appended member of a child list whose node is named
`n` in the arena `s`. -/
def lastNamed (s : State) (els : List Nat) (n : String) : Option Nat :=
  (els.filter (fun e => (s.get e).name == n)).getLast?

/-- Structural invariant of every reachable arena: parents point to
strictly smaller ids, a child-list member's parent field names exactly the
list owner, and each `_element_map` entry is the most recently appended
same-named member of the owner's `_elements`. -/
structure ArenaInv (s : State) : Prop where
  parent_lt : ∀ i p, (s.get i).parent = some p → p < i
  elem_parent : ∀ i, ∀ e ∈ (s.get i).elements, e < s.len ∧ (s.get e).parent = some i
  map_last : ∀ i n, dictLookup (s.get i).element_map n = lastNamed s (s.get i).elements n

/-- Claim C5's per-state property, word for word: every non-root node is
either a cursor present in no child list and no map, or a committed node
present in exactly one parent's child list and stored in that parent's map
under its own name. -/
def ClaimC5At (s : State) : Prop :=
  ∀ i ∈ List.range s.len, 0 < i →
    (∀ q ∈ List.range s.len, i ∉ (s.get q).elements ∧
        ∀ kv ∈ (s.get q).element_map, kv.2 ≠ i)
    ∨ (∃ p ∈ List.range s.len, (s.get i).parent = some p ∧ i ∈ (s.get p).elements ∧
        dictLookup (s.get p).element_map (s.get i).name = some i ∧
        ∀ q ∈ List.range s.len, q ≠ p → i ∉ (s.get q).elements)

instance (s : State) : Decidable (ClaimC5At s) := by unfold ClaimC5At; infer_instance

/-- Scenario state with two same-named siblings: a fresh root `books`, then
`books.book(n=1)`, then `books.book(n=2)`. -/
def c5State : State :=
  EasyXML.commitPath
    (EasyXML.commitPath (EasyXML.init "books") 0 ["book"] [("n", .int 1)])
    0 ["book"] [("n", .int 2)]

/-- Length of a node's parent chain, with fuel (any fuel above the id works
once parents decrease, which `Inv.parent_lt` guarantees). -/
def chainLenF (s : State) : Nat → Nat → Nat
  | 0, _ => 0
  | f + 1, i =>
    match (s.get i).parent with
    | none => 0
    | some p => chainLenF s f p + 1

/-- Length of a node's parent chain. -/
def pchainLen (s : State) (i : Nat) : Nat := chainLenF s (i + 1) i

/-- Name of the `j`-th node on the committed chain `root.pre[0]...pre[k-1]`:
the root's name at position 0, then the prefix names. -/
def chainName (rt : String) (pre : List String) (j : Nat) : String :=
  if j = 0 then rt else pre.getD (j - 1) ""

/-- Parent id of the `j`-th node on the committed chain. -/
def parentOf (j : Nat) : Option Nat := if j = 0 then none else some (j - 1)

/-- Cursor nodes allocated by a chain of missing-name accesses: the first
hangs off `parent`, each following one off its predecessor, ids starting at
`firstId`. -/
def cursorChain (parent : Nat) (firstId : Nat) : List String → List Node
  | [] => []
  | nm :: rest => ⟨nm, some parent, [], [], []⟩ :: cursorChain firstId (firstId + 1) rest

/-- Shape of the arena after `N ≥ 1` commits of the path
`root.pre[0]...pre[k-1].leaf` on a fresh root (ignoring helper cursors):
the chain nodes sit at ids `0..k`, each owning exactly its successor; node
`k` owns the `N` committed leaves at ids `k+2..k+1+N` (id `k+1` is the
orphaned first leaf cursor), its map entry naming the newest; leaf `i`
carries the attribute list of the `i`-th commit. -/
def ChainShape (s : State) (rt : String) (pre : List String) (leaf : String)
    (As : List (List (String × PyVal))) : Prop :=
  s.len = pre.length + 2 + As.length ∧
  (∀ j, j < pre.length →
    s.get j = ⟨chainName rt pre j, parentOf j, [j + 1], [],
      [(chainName rt pre (j + 1), j + 1)]⟩) ∧
  s.get pre.length = ⟨chainName rt pre pre.length, parentOf pre.length,
      List.range' (pre.length + 2) As.length, [],
      [(leaf, pre.length + 1 + As.length)]⟩ ∧
  (∀ i, i < As.length →
    s.get (pre.length + 2 + i) = ⟨leaf, some pre.length, [], As.getD i [], []⟩)

/-- Shape of the arena in the middle of the first commit's upward walk:
nodes `j..k` of the chain are already attached, nodes below `j` are still
bare, and the single committed leaf sits at id `k+2`. -/
def MidShape (s : State) (rt : String) (pre : List String) (leaf : String)
    (A : List (String × PyVal)) (j : Nat) : Prop :=
  s.len = pre.length + 3 ∧
  (∀ i, i < j → s.get i = ⟨chainName rt pre i, parentOf i, [], [], []⟩) ∧
  (∀ i, j ≤ i → i < pre.length →
    s.get i = ⟨chainName rt pre i, parentOf i, [i + 1], [],
      [(chainName rt pre (i + 1), i + 1)]⟩) ∧
  (j ≤ pre.length →
    s.get pre.length = ⟨chainName rt pre pre.length, parentOf pre.length,
      [pre.length + 2], [], [(leaf, pre.length + 2)]⟩) ∧
  s.get (pre.length + 2) = ⟨leaf, some pre.length, [], A, []⟩

/-- Expected pretty-printed text of the committed chain: the current node
(named `cur`) opens, the remaining chain (or, at the bottom, one
self-closing `leaf` line per commit in order) renders indented two more
spaces, then the current node closes. -/
def expRender (leaf : String) (As : List (List (String × PyVal))) :
    String → List String → String → String
  | cur, [], ind => ind ++ "<" ++ cur ++ ">\n"
      ++ String.join (As.map (fun A =>
          ind ++ "  " ++ "<" ++ leaf ++ renderAttrs A ++ "/>\n"))
      ++ ind ++ "</" ++ cur ++ ">\n"
  | cur, nm :: rest, ind => ind ++ "<" ++ cur ++ ">\n"
      ++ expRender leaf As nm rest (ind ++ "  ")
      ++ ind ++ "</" ++ cur ++ ">\n"

section StateLemmas

theorem State.len_push (s : State) (n : Node) : (s.push n).len = s.len + 1 := by
  simp [State.push, State.len]

theorem State.len_set (s : State) (i : Nat) (n : Node) : (s.set i n).len = s.len := by
  simp [State.set, State.len]

theorem State.get_push_lt (s : State) (n : Node) (j : Nat) (h : j < s.len) :
    (s.push n).get j = s.get j := by
  simp only [State.push, State.get]
  rw [List.getD_append]
  exact h

theorem State.get_push_len (s : State) (n : Node) : (s.push n).get s.len = n := by
  simp [State.push, State.get, State.len, List.getD_append_right, List.getD]

theorem State.get_push_ge (s : State) (n : Node) (j : Nat) (h : s.len + 1 ≤ j) :
    (s.push n).get j = default := by
  simp only [State.push, State.get, State.len] at *
  rw [List.getD_eq_default]
  simp
  omega

theorem State.get_set_self (s : State) (i : Nat) (n : Node) (h : i < s.len) :
    (s.set i n).get i = n := by
  simp only [State.set, State.get]
  rw [List.getD_eq_getD_get?, List.get?_eq_getElem?, List.getElem?_set_self (by exact h)]
  rfl

theorem State.get_set_ne (s : State) (i : Nat) (n : Node) (j : Nat) (h : j ≠ i) :
    (s.set i n).get j = s.get j := by
  simp only [State.set, State.get]
  rw [List.getD_eq_getD_get?, List.getD_eq_getD_get?, List.get?_eq_getElem?,
    List.get?_eq_getElem?, List.getElem?_set_ne (by omega)]

theorem State.get_ge (s : State) (j : Nat) (h : s.len ≤ j) : s.get j = default := by
  simp only [State.get, State.len] at *
  exact List.getD_eq_default _ _ h

end StateLemmas

theorem attachLoop_parent_none (f : Nat) (s : State) (e : Nat)
    (h : (s.get e).parent = none) : EasyXML.attachLoop f s e = s := by
  cases f with
  | zero => rfl
  | succ f => simp [EasyXML.attachLoop, h]

/-- C1: after `root.a.b.c(x=1)` then `root.a.b.c(x=2)` on a fresh root, the
root has exactly one child, named `a`; that `a` has exactly one child, named
`b`; `b` has exactly two children, both named `c`, carrying `x="1"` and
`x="2"` in commit order; and serializing prints exactly that tree. -/
theorem c1_repeated_path_commit :
    ((c1State.get 0).elements.map fun e => (c1State.get e).name) = ["a"] ∧
    ((c1State.get 1).elements.map fun e => (c1State.get e).name) = ["b"] ∧
    ((c1State.get 2).elements.map fun e =>
      ((c1State.get e).name, (c1State.get e).attributes)) =
      [("c", [("x", PyVal.int 1)]), ("c", [("x", PyVal.int 2)])] ∧
    (c1State.get 1).name = "a" ∧ (c1State.get 2).name = "b" ∧
    (c1State.get 0).parent = none ∧ (c1State.get 1).parent = some 0 ∧
    (c1State.get 2).parent = some 1 ∧
    EasyXML.str c1State 0 =
      "<root>\n  <a>\n    <b>\n      <c x=\"1\"/>\n      <c x=\"2\"/>\n    </b>\n  </a>\n</root>" := by
  decide

/-- C4: invoking a node whose parent reference is `none` (in particular the
bare root) with any attributes only allocates a disconnected orphan node: the
call returns normally and every previously existing node is untouched. -/
theorem c4_parentless_commit_frame (s : State) (id : Nat)
    (kw : List (String × PyVal)) (h : (s.get id).parent = none) :
    EasyXML.call s id kw = s.push ⟨(s.get id).name, none, [], kw, []⟩ ∧
    ∀ j, j < s.len → (EasyXML.call s id kw).get j = s.get j := by
  have key : EasyXML.call s id kw
      = s.push ⟨(s.get id).name, (s.get id).parent, [], kw, []⟩ := by
    unfold EasyXML.call
    exact attachLoop_parent_none _ _ _ (by rw [State.get_push_len]; exact h)
  refine ⟨by rw [key, h], fun j hj => by rw [key, State.get_push_lt _ _ _ hj]⟩

/-- C4 witness: invoking a fresh root `books` with `title="X"` leaves its
only pre-existing node (the root itself) unchanged. -/
theorem c4_parentless_commit_frame_witness :
    EasyXML.call (EasyXML.init "books") 0 [("title", PyVal.str "X")] =
      (EasyXML.init "books").push ⟨"books", none, [], [("title", PyVal.str "X")], []⟩ ∧
    ∀ j, j < (EasyXML.init "books").len →
      (EasyXML.call (EasyXML.init "books") 0 [("title", PyVal.str "X")]).get j =
        (EasyXML.init "books").get j :=
  c4_parentless_commit_frame (EasyXML.init "books") 0 [("title", PyVal.str "X")] (by decide)

/-- C7: the constructor takes only a name: the constructed arena holds a
single parentless, childless node whose attribute list is empty, so no
initial attribute set can be supplied, contrary to the constructor's own
docstring ("Any keyword arguments are set as attributes on the new
element"). -/
theorem c7_init_takes_only_name (nm : String) :
    (EasyXML.init nm).len = 1 ∧
    (EasyXML.init nm).get 0 = ⟨nm, none, [], [], []⟩ :=
  ⟨rfl, rfl⟩

/-- C8: attribute access for a name beginning with an underscore resolves to
the object's own internal state: the state is returned untouched (no cursor
is allocated, `_element_map` is neither consulted nor modified) and the
result is the internal-state marker, not a child node. -/
theorem c8_underscore_access_internal (s : State) (self : Nat) (nm : String)
    (h : EasyXML.underscoreFirst nm = true) :
    EasyXML.getattr s self nm = (s, EasyXML.AttrRef.internal) := by
  simp [EasyXML.getattr, h]

/-- C8 witness: accessing `_parent` on a fresh root is routed to internal
state and does not touch the arena. -/
theorem c8_underscore_access_internal_witness :
    EasyXML.getattr (EasyXML.init "books") 0 "_parent" =
      (EasyXML.init "books", EasyXML.AttrRef.internal) :=
  c8_underscore_access_internal (EasyXML.init "books") 0 "_parent" (by decide)

section PipelineLemmas

theorem foldl_append_data (l : List String) (acc : String) :
    (l.foldl (fun r t => r ++ t) acc).data = acc.data ++ (l.map String.data).flatten := by
  induction l generalizing acc with
  | nil => simp
  | cons x xs ih => simp [ih, String.data_append]

theorem str_join_data (l : List String) :
    (String.join l).data = (l.map String.data).flatten := by
  have h := foldl_append_data l ""
  simpa [String.join] using h

theorem lastPQ_newline (xs : List Char) : lastPQ ('\n' :: xs) = none := by
  cases xs with
  | nil => rfl
  | cons a ys => simp [lastPQ]

theorem lastPQ_body_indep (pre : List Char) (b1 b2 : List Char) :
    lastPQ (pre ++ '\n' :: b1) = lastPQ (pre ++ '\n' :: b2) := by
  induction pre with
  | nil => simp [lastPQ_newline]
  | cons c rest ih =>
    cases rest with
    | nil => simp [lastPQ, lastPQ_newline]
    | cons d rest2 =>
      have ih' : lastPQ (d :: (rest2 ++ '\n' :: b1)) = lastPQ (d :: (rest2 ++ '\n' :: b2)) := ih
      simp only [List.cons_append, lastPQ, List.append_eq]
      rw [ih']

theorem qm_mem_of_header_start (cs : List Char)
    (h : ("<?xml".data).isPrefixOf cs = true) : '?' ∈ cs := by
  have e : "<?xml".data = ['<', '?', 'x', 'm', 'l'] := by decide
  rw [e] at h
  match cs with
  | [] => simp [List.isPrefixOf] at h
  | [c] => simp [List.isPrefixOf] at h
  | c1 :: c2 :: rest =>
    simp [List.isPrefixOf] at h
    rw [← h.2.1]
    simp

theorem reSubF_noQ (f : Nat) (cs : List Char) (hf : cs.length ≤ f)
    (h : '?' ∉ cs) : reSubF f cs = cs := by
  induction f generalizing cs with
  | zero => rfl
  | succ f ih =>
    cases cs with
    | nil => rfl
    | cons c rest =>
      have hpre : ("<?xml".data).isPrefixOf (c :: rest) = false := by
        cases hp : ("<?xml".data).isPrefixOf (c :: rest)
        · rfl
        · exact absurd (qm_mem_of_header_start _ hp) h
      simp only [List.length_cons] at hf
      have hrest : '?' ∉ rest := fun hm => h (List.mem_cons_of_mem _ hm)
      simp [reSubF, hpre, ih rest (by omega) hrest]

theorem reSubF_step_header (f : Nat) (body : List Char) :
    reSubF (f + 1)
      ('<' :: '?' :: 'x' :: 'm' :: 'l' :: (" version=\"1.0\" ?>".data ++ '\n' :: body))
      = reSubF f ('\n' :: body) := by
  have e : "<?xml".data = ['<', '?', 'x', 'm', 'l'] := by decide
  have hpre : ("<?xml".data).isPrefixOf
      ('<' :: '?' :: 'x' :: 'm' :: 'l' :: (" version=\"1.0\" ?>".data ++ '\n' :: body))
      = true := by
    rw [e]; simp [List.isPrefixOf]
  have hlast : lastPQ (" version=\"1.0\" ?>".data ++ '\n' :: body) = some 15 := by
    rw [lastPQ_body_indep _ _ []]; decide
  have hdrop : List.drop 17 (" version=\"1.0\" ?>".data ++ '\n' :: body) = '\n' :: body := by
    have hl : (" version=\"1.0\" ?>".data).length = 17 := by decide
    rw [← hl, List.drop_left]
  simp only [reSubF, hpre, if_true, List.drop_succ_cons, List.drop_zero, hlast, hdrop]

theorem reSubF_step_nl (f : Nat) (body : List Char) :
    reSubF (f + 1) ('\n' :: body) = '\n' :: reSubF f body := by
  have hpre : ("<?xml".data).isPrefixOf ('\n' :: body) = false := by
    have e : "<?xml".data = ['<', '?', 'x', 'm', 'l'] := by decide
    rw [e]; simp [List.isPrefixOf]
  simp [reSubF, hpre]

theorem reSub_header (body : List Char) (hq : '?' ∉ body) :
    reSubAux (headerLine.data ++ body) = '\n' :: body := by
  have hdr : headerLine.data
      = '<' :: '?' :: 'x' :: 'm' :: 'l' :: (" version=\"1.0\" ?>".data ++ ['\n']) := by
    decide
  have hlen : (headerLine.data ++ body).length = (body.length + 21) + 1 + 1 := by
    rw [List.length_append]
    have h23 : headerLine.data.length = 23 := by decide
    omega
  have shape : headerLine.data ++ body
      = '<' :: '?' :: 'x' :: 'm' :: 'l' :: (" version=\"1.0\" ?>".data ++ '\n' :: body) := by
    rw [hdr]
    simp
  unfold reSubAux
  rw [hlen, shape, reSubF_step_header, reSubF_step_nl, reSubF_noQ _ _ (by omega) hq]

theorem pyStripL_cons_ws (c : Char) (cs : List Char) (h : isWs c = true) :
    pyStripL (c :: cs) = pyStripL cs := by
  simp [pyStripL, List.dropWhile_cons, h]

theorem pyStripL_newline_cons (cs : List Char) : pyStripL ('\n' :: cs) = pyStripL cs :=
  pyStripL_cons_ws _ _ (by decide)

theorem pyStripL_wrapped (core : List Char) (h1 : core.head? = some '<')
    (h2 : core.getLast? = some '>') : pyStripL (core ++ ['\n']) = core := by
  obtain ⟨rest, rfl⟩ : ∃ rest, core = '<' :: rest := by
    cases core with
    | nil => simp at h1
    | cons c rest =>
      simp at h1
      exact ⟨rest, by rw [h1]⟩
  unfold pyStripL
  have hd : (('<' :: rest) ++ ['\n']).dropWhile isWs = ('<' :: rest) ++ ['\n'] := by
    simp [List.dropWhile_cons, isWs]
  rw [hd, List.reverse_append]
  simp only [List.reverse_cons, List.reverse_nil, List.nil_append, List.singleton_append]
  rw [List.dropWhile_cons]
  have hnl : isWs '\n' = true := by decide
  rw [if_pos (by simp [hnl])]
  have hrev : (('<' :: rest).reverse).head? = some '>' := by
    rw [List.head?_reverse]
    exact h2
  obtain ⟨tl, htl⟩ : ∃ tl, ('<' :: rest).reverse = '>' :: tl := by
    cases hc : ('<' :: rest).reverse with
    | nil => rw [hc] at hrev; simp at hrev
    | cons a tl =>
      rw [hc] at hrev
      simp at hrev
      exact ⟨tl, by rw [hrev]⟩
  have htl' : rest.reverse ++ ['<'] = '>' :: tl := by rw [← List.reverse_cons]; exact htl
  rw [htl', List.dropWhile_cons, if_neg (by simp [isWs]), ← htl', ← List.reverse_cons,
    List.reverse_reverse]

theorem str_eq_of_noQ (s : State) (root : Nat)
    (h : '?' ∉ (prettyNode s s.len root "").data) :
    EasyXML.str s root = pyStrip (prettyNode s s.len root "") := by
  unfold EasyXML.str pyStrip
  rw [show (String.mk (reSubAux (headerLine.data ++ (prettyNode s s.len root "").data))).data
      = reSubAux (headerLine.data ++ (prettyNode s s.len root "").data) from rfl]
  rw [reSub_header _ h, pyStripL_newline_cons]

theorem str_eq_explicit (s : State) (root : Nat) (core : List Char)
    (hb : (prettyNode s s.len root "").data = core ++ ['\n'])
    (h1 : core.head? = some '<') (h2 : core.getLast? = some '>')
    (hq : '?' ∉ core) :
    EasyXML.str s root = String.mk core := by
  have hq' : '?' ∉ core ++ ['\n'] := by
    intro hm
    rcases List.mem_append.mp hm with hm | hm
    · exact hq hm
    · simp at hm
  unfold EasyXML.str pyStrip
  rw [show (String.mk (reSubAux (headerLine.data ++ (prettyNode s s.len root "").data))).data
      = reSubAux (headerLine.data ++ (prettyNode s s.len root "").data) from rfl]
  rw [hb, reSub_header _ hq', pyStripL_newline_cons, pyStripL_wrapped _ h1 h2]

end PipelineLemmas

section ClaimC3

/-- C3 counterexample: committing `title="X"` directly on a fresh root
`books` and serializing yields `<books/>`; the supplied attribute does not
appear, so the output differs from the single element carrying exactly the
supplied attributes that the claim promises. -/
theorem c3_counterexample :
    EasyXML.str c3State 0 = "<books/>" ∧
    EasyXML.str c3State 0 ≠ "<" ++ "books" ++ renderAttrs [("title", PyVal.str "X")] ++ "/>" := by
  decide

/-- C3 amended: committing `root(A)` on a freshly constructed root named `r`
and then serializing yields a single self-closing element named `r` with NO
attributes: the supplied mapping is stored only on a disconnected orphan
node (the parentless commit is a no-op on the tree) and never serialized. -/
theorem c3_root_commit_discards_attributes (r : String) (A : List (String × PyVal))
    (h : NoQ r) :
    EasyXML.str (EasyXML.call (EasyXML.init r) 0 A) 0 = "<" ++ r ++ "/>" := by
  have key : EasyXML.call (EasyXML.init r) 0 A
      = (EasyXML.init r).push ⟨r, none, [], A, []⟩ :=
    (c4_parentless_commit_frame (EasyXML.init r) 0 A rfl).1
  rw [key]
  have hlen : ((EasyXML.init r).push ⟨r, none, [], A, []⟩).len = 2 := rfl
  have hroot : ((EasyXML.init r).push ⟨r, none, [], A, []⟩).get 0 = ⟨r, none, [], [], []⟩ := rfl
  have hbody : (prettyNode ((EasyXML.init r).push ⟨r, none, [], A, []⟩)
        (((EasyXML.init r).push ⟨r, none, [], A, []⟩).len) 0 "").data
      = ('<' :: (r.data ++ ['/', '>'])) ++ ['\n'] := by
    rw [hlen]
    show (prettyNode _ (1 + 1) 0 "").data = _
    rw [prettyNode]
    rw [hroot]
    simp [renderAttrs, String.data_append]
  have hcore1 : ('<' :: (r.data ++ ['/', '>'])).head? = some '<' := rfl
  have hcore2 : ('<' :: (r.data ++ ['/', '>'])).getLast? = some '>' := by
    rw [List.getLast?_cons, show r.data ++ ['/', '>'] = (r.data ++ ['/']) ++ ['>'] by simp,
      List.getLast?_concat]
    simp
  have hcoreq : '?' ∉ '<' :: (r.data ++ ['/', '>']) := by
    intro hm
    rcases List.mem_cons.mp hm with hm | hm
    · simp at hm
    · rcases List.mem_append.mp hm with hm | hm
      · exact h hm
      · simp at hm
  rw [str_eq_explicit _ 0 _ hbody hcore1 hcore2 hcoreq]
  apply String.ext
  simp [String.data_append]

/-- C3 amended witness: the concrete `books` scenario evaluates to
`<books/>`. -/
theorem c3_root_commit_discards_attributes_witness :
    EasyXML.str (EasyXML.call (EasyXML.init "books") 0 [("title", PyVal.str "X")]) 0
      = "<" ++ "books" ++ "/>" :=
  c3_root_commit_discards_attributes "books" [("title", PyVal.str "X")] (by decide)

end ClaimC3

section ClaimC6

theorem xmlEscape_noQ (t : String) (h : '?' ∉ t.data) : '?' ∉ (xmlEscape t).data := by
  unfold xmlEscape
  intro hm
  rw [show (String.mk (t.data.map escChar).flatten).data = (t.data.map escChar).flatten
    from rfl] at hm
  rw [List.mem_flatten] at hm
  obtain ⟨l, hl, hml⟩ := hm
  rw [List.mem_map] at hl
  obtain ⟨c, hc, rfl⟩ := hl
  unfold escChar at hml
  split at hml
  · exact absurd hml (by decide)
  · split at hml
    · exact absurd hml (by decide)
    · split at hml
      · exact absurd hml (by decide)
      · split at hml
        · exact absurd hml (by decide)
        · simp at hml
          exact h (hml ▸ hc)

theorem renderAttrs_noQ (l : List (String × PyVal))
    (h : ∀ kv ∈ l, NoQ kv.1 ∧ NoQ kv.2.pyStr) : '?' ∉ (renderAttrs l).data := by
  induction l with
  | nil => intro hm; exact absurd hm (by decide)
  | cons kv rest ih =>
    obtain ⟨h1, h2⟩ := h kv (List.mem_cons_self _ _)
    simp only [renderAttrs, String.data_append, List.mem_append, not_or]
    refine ⟨⟨⟨⟨⟨by decide, h1⟩, by decide⟩, xmlEscape_noQ _ h2⟩, by decide⟩,
      ih fun kv hkv => h kv (List.mem_cons_of_mem _ hkv)⟩

theorem cleanNode (s : State) (h : CleanState s) (id : Nat) :
    NoQ (s.get id).name ∧ ∀ kv ∈ (s.get id).attributes, NoQ kv.1 ∧ NoQ kv.2.pyStr := by
  by_cases hid : id < s.nodes.length
  · apply h
    unfold State.get
    rw [List.getD_eq_getElem _ _ hid]
    exact List.getElem_mem _
  · rw [State.get_ge s id (by unfold State.len; omega)]
    exact ⟨by decide, by decide⟩

theorem prettyNode_noQ (s : State) (h : CleanState s) (f : Nat) :
    ∀ id ind, '?' ∉ ind.data → '?' ∉ (prettyNode s f id ind).data := by
  induction f with
  | zero =>
    intro id ind hind hm
    rw [show prettyNode s 0 id ind = "" from rfl] at hm
    exact absurd hm (by decide)
  | succ f ih =>
    intro id ind hind
    obtain ⟨hname, hattrs⟩ := cleanNode s h id
    by_cases he : (s.get id).elements.isEmpty
    · simp only [prettyNode]
      rw [if_pos he]
      simp only [String.data_append, List.mem_append, not_or]
      exact ⟨⟨⟨⟨hind, by decide⟩, hname⟩, renderAttrs_noQ _ hattrs⟩, by decide⟩
    · simp only [prettyNode]
      rw [if_neg he]
      simp only [String.data_append, List.mem_append, not_or]
      refine ⟨⟨⟨⟨⟨⟨⟨⟨⟨hind, by decide⟩, hname⟩, renderAttrs_noQ _ hattrs⟩, by decide⟩, ?_⟩,
        hind⟩, by decide⟩, hname⟩, by decide⟩
      intro hm
      rw [str_join_data, List.mem_flatten] at hm
      obtain ⟨l, hl, hml⟩ := hm
      rw [List.mem_map] at hl
      obtain ⟨t, ht, rfl⟩ := hl
      rw [List.mem_map] at ht
      obtain ⟨e, he2, rfl⟩ := ht
      refine ih e (ind ++ "  ") ?_ hml
      simp only [String.data_append, List.mem_append, not_or]
      exact ⟨hind, by decide⟩

theorem specAttrText_eq_renderAttrs (l : List (String × PyVal)) :
    specAttrText l = renderAttrs l := by
  induction l with
  | nil => rfl
  | cons kv rest ih => simp [specAttrText, renderAttrs, ih]

theorem specIndent_append (d : Nat) : specIndent d ++ "  " = specIndent (d + 1) := by
  induction d with
  | zero => rfl
  | succ d ih =>
    apply String.ext
    rw [show specIndent (d + 1) = "  " ++ specIndent d from rfl,
      show specIndent (d + 1 + 1) = "  " ++ specIndent (d + 1) from rfl, ← ih]
    simp [String.data_append, List.append_assoc]

theorem prettyNode_eq_spec (s : State) (f : Nat) :
    ∀ id d, prettyNode s f id (specIndent d) = specRenderNode s f id d := by
  induction f with
  | zero => intro id d; rfl
  | succ f ih =>
    intro id d
    simp only [prettyNode, specRenderNode, specAttrText_eq_renderAttrs]
    have hmap : (fun e => prettyNode s f e (specIndent d ++ "  "))
        = fun e => specRenderNode s f e (d + 1) := by
      funext e
      rw [specIndent_append]
      exact ih e (d + 1)
    rw [hmap]

/-- C6: for every clean tree (no `?` in any name, attribute key or
stringified value, so the header regex cannot touch user data), the
source serializer — minidom pretty-printing followed by the `re.sub` header
removal and `strip()` — produces exactly the spec's rendering: depth-first
pre-order, start tag with attributes in insertion order, children in stored
order, end tag or self-closing form, two-space indent per depth,
newline-separated, header stripped, whitespace-trimmed. -/
theorem c6_str_refines_spec (s : State) (root : Nat) (h : CleanState s) :
    EasyXML.str s root = specSerialize s root := by
  have hq := prettyNode_noQ s h s.len root "" (by decide)
  rw [str_eq_of_noQ s root hq]
  unfold specSerialize
  rw [show ("" : String) = specIndent 0 from rfl, prettyNode_eq_spec]

/-- C6 witness: the two-commit scenario state is clean and its serialization
agrees with the spec rendering. -/
theorem c6_str_refines_spec_witness :
    EasyXML.str c1State 0 = specSerialize c1State 0 :=
  c6_str_refines_spec c1State 0 (by decide)

end ClaimC6

section InvariantLemmas

theorem State.get_set (s : State) (i : Nat) (n : Node) (j : Nat) :
    (s.set i n).get j = if i = j ∧ i < s.len then n else s.get j := by
  by_cases h1 : i = j
  · subst h1
    by_cases h2 : i < s.len
    · rw [State.get_set_self _ _ _ h2, if_pos ⟨rfl, h2⟩]
    · rw [if_neg (fun hand => h2 hand.2)]
      have hset : s.set i n = s := by
        unfold State.set
        rw [List.set_eq_of_length_le (by unfold State.len at h2; omega)]
      rw [hset]
  · rw [State.get_set_ne _ _ _ _ (Ne.symm h1), if_neg (fun hand => h1 hand.1)]

theorem dictLookup_set (m : List (String × Nat)) (k : String) (v : Nat) (k' : String) :
    dictLookup (dictSet m k v) k' = if k = k' then some v else dictLookup m k' := by
  induction m with
  | nil => simp [dictSet, dictLookup]
  | cons kv rest ih =>
    obtain ⟨k1, v1⟩ := kv
    by_cases h1 : k1 = k
    · subst h1
      simp only [dictSet, if_pos rfl, dictLookup]
      by_cases h2 : k1 = k' <;> simp [h2]
    · simp only [dictSet, if_neg h1, dictLookup]
      by_cases h2 : k1 = k'
      · subst h2
        rw [if_pos rfl, if_pos rfl, if_neg (fun he => h1 he.symm)]
      · rw [if_neg h2, if_neg h2, ih]

theorem lastNamed_append_one (s : State) (els : List Nat) (e : Nat) (n : String) :
    lastNamed s (els ++ [e]) n =
      if (s.get e).name = n then some e else lastNamed s els n := by
  unfold lastNamed
  rw [List.filter_append]
  by_cases h : (s.get e).name = n
  · rw [if_pos h]
    have : List.filter (fun x => (s.get x).name == n) [e] = [e] := by simp [List.filter, h]
    rw [this, List.getLast?_concat]
  · rw [if_neg h]
    have hb : ((s.get e).name == n) = false := by simp [h]
    have : List.filter (fun x => (s.get x).name == n) [e] = [] := by simp [List.filter, hb]
    rw [this, List.append_nil]

theorem lastNamed_congr (s s' : State) (els : List Nat) (n : String)
    (h : ∀ e ∈ els, (s'.get e).name = (s.get e).name) :
    lastNamed s' els n = lastNamed s els n := by
  unfold lastNamed
  congr 1
  apply List.filter_congr
  intro e he
  rw [h e he]

theorem lastNamed_mem (s : State) (els : List Nat) (n : String) (e : Nat)
    (h : lastNamed s els n = some e) : e ∈ els ∧ (s.get e).name = n := by
  unfold lastNamed at h
  have hm : e ∈ els.filter (fun x => (s.get x).name == n) := by
    cases hl : (els.filter (fun x => (s.get x).name == n)).getLast? with
    | none => rw [hl] at h; exact absurd h (by simp)
    | some a =>
      rw [hl] at h
      injection h with hae
      have hmem : a ∈ (els.filter (fun x => (s.get x).name == n)).getLast? := by
        rw [hl]; rfl
      obtain ⟨hne, hec⟩ := List.mem_getLast?_eq_getLast hmem
      rw [← hae, hec]
      exact List.getLast_mem hne
  obtain ⟨h1, h2⟩ := List.mem_filter.mp hm
  exact ⟨h1, by simpa using h2⟩

theorem get_set_parent (s : State) (p : Nat) (pn' : Node)
    (hp : pn'.parent = (s.get p).parent) (x : Nat) :
    ((s.set p pn').get x).parent = (s.get x).parent := by
  rw [State.get_set]
  by_cases hx : p = x ∧ p < s.len
  · rw [if_pos hx, hp, hx.1]
  · rw [if_neg hx]

theorem get_set_name (s : State) (p : Nat) (pn' : Node)
    (hp : pn'.name = (s.get p).name) (x : Nat) :
    ((s.set p pn').get x).name = (s.get x).name := by
  rw [State.get_set]
  by_cases hx : p = x ∧ p < s.len
  · rw [if_pos hx, hp, hx.1]
  · rw [if_neg hx]

theorem arenaInv_set_attach (s : State) (p e : Nat) (he : e < s.len)
    (hpe : (s.get e).parent = some p) (inv : ArenaInv s) :
    ArenaInv (s.set p { s.get p with
      elements := (s.get p).elements ++ [e],
      element_map := dictSet (s.get p).element_map (s.get e).name e }) := by
  set pn' : Node := { s.get p with
      elements := (s.get p).elements ++ [e],
      element_map := dictSet (s.get p).element_map (s.get e).name e } with hpn
  have hparent : ∀ x, ((s.set p pn').get x).parent = (s.get x).parent :=
    get_set_parent s p pn' rfl
  have hname : ∀ x, ((s.set p pn').get x).name = (s.get x).name :=
    get_set_name s p pn' rfl
  have hlen : (s.set p pn').len = s.len := State.len_set s p pn'
  constructor
  · intro i q hq
    rw [hparent] at hq
    exact inv.parent_lt i q hq
  · intro i x hx
    rw [State.get_set] at hx
    rw [hlen, hparent]
    by_cases hip : p = i ∧ p < s.len
    · rw [if_pos hip] at hx
      rcases List.mem_append.mp hx with hx | hx
      · have h2 := inv.elem_parent p x hx
        exact ⟨h2.1, hip.1 ▸ h2.2⟩
      · have hxe : x = e := by simpa using hx
        subst hxe
        exact ⟨he, hip.1 ▸ hpe⟩
    · rw [if_neg hip] at hx
      exact inv.elem_parent i x hx
  · intro i n
    rw [State.get_set]
    by_cases hip : p = i ∧ p < s.len
    · rw [if_pos hip]
      show dictLookup (dictSet (s.get p).element_map (s.get e).name e) n
          = lastNamed (s.set p pn') ((s.get p).elements ++ [e]) n
      rw [dictLookup_set,
        lastNamed_congr s (s.set p pn') ((s.get p).elements ++ [e]) n (fun x _ => hname x),
        lastNamed_append_one, inv.map_last p n]
    · rw [if_neg hip,
        lastNamed_congr s (s.set p pn') (s.get i).elements n (fun x _ => hname x),
        inv.map_last i n]

theorem attachLoop_len (f : Nat) : ∀ s e, (EasyXML.attachLoop f s e).len = s.len := by
  induction f with
  | zero => intro s e; rfl
  | succ f ih =>
    intro s e
    simp only [EasyXML.attachLoop]
    cases hpar : (s.get e).parent with
    | none => rfl
    | some p =>
      by_cases hmem : e ∈ dictValues (s.get p).element_map
      · simp [hmem]
      · simp only [hmem, if_neg, if_false]
        rw [ih, State.len_set]

theorem attachLoop_parent (f : Nat) :
    ∀ s e x, ((EasyXML.attachLoop f s e).get x).parent = (s.get x).parent := by
  induction f with
  | zero => intro s e x; rfl
  | succ f ih =>
    intro s e x
    simp only [EasyXML.attachLoop]
    cases hpar : (s.get e).parent with
    | none => rfl
    | some p =>
      by_cases hmem : e ∈ dictValues (s.get p).element_map
      · simp [hmem]
      · simp only [hmem, if_false]
        rw [ih, get_set_parent]
        rfl

theorem attachLoop_name (f : Nat) :
    ∀ s e x, ((EasyXML.attachLoop f s e).get x).name = (s.get x).name := by
  induction f with
  | zero => intro s e x; rfl
  | succ f ih =>
    intro s e x
    simp only [EasyXML.attachLoop]
    cases hpar : (s.get e).parent with
    | none => rfl
    | some p =>
      by_cases hmem : e ∈ dictValues (s.get p).element_map
      · simp [hmem]
      · simp only [hmem, if_false]
        rw [ih, get_set_name]
        rfl

theorem arenaInv_attachLoop (f : Nat) :
    ∀ s e, ArenaInv s → ArenaInv (EasyXML.attachLoop f s e) := by
  induction f with
  | zero => intro s e inv; exact inv
  | succ f ih =>
    intro s e inv
    simp only [EasyXML.attachLoop]
    cases hpar : (s.get e).parent with
    | none => exact inv
    | some p =>
      by_cases hmem : e ∈ dictValues (s.get p).element_map
      · simp only [hmem, if_true]
        exact inv
      · simp only [hmem, if_false]
        by_cases he : e < s.len
        · exact ih _ _ (arenaInv_set_attach s p e he hpar inv)
        · rw [State.get_ge s e (by omega)] at hpar
          exact absurd hpar (by simp)

theorem arenaInv_push (s : State) (n : Node) (inv : ArenaInv s)
    (h1 : n.elements = []) (h2 : n.element_map = [])
    (h3 : ∀ p, n.parent = some p → p < s.len) : ArenaInv (s.push n) := by
  constructor
  · intro i q hq
    rcases Nat.lt_trichotomy i s.len with hi | hi | hi
    · rw [State.get_push_lt _ _ _ hi] at hq
      exact inv.parent_lt i q hq
    · subst hi
      rw [State.get_push_len] at hq
      exact h3 q hq
    · rw [State.get_push_ge _ _ _ (by omega)] at hq
      exact absurd hq (by simp)
  · intro i x hx
    rw [State.len_push]
    rcases Nat.lt_trichotomy i s.len with hi | hi | hi
    · rw [State.get_push_lt _ _ _ hi] at hx
      obtain ⟨hx1, hx2⟩ := inv.elem_parent i x hx
      rw [State.get_push_lt _ _ _ hx1]
      exact ⟨by omega, hx2⟩
    · subst hi
      rw [State.get_push_len, h1] at hx
      exact absurd hx (by simp)
    · rw [State.get_push_ge _ _ _ (by omega)] at hx
      exact absurd hx (List.not_mem_nil x)
  · intro i n'
    rcases Nat.lt_trichotomy i s.len with hi | hi | hi
    · rw [State.get_push_lt _ _ _ hi,
        lastNamed_congr s (s.push n) (s.get i).elements n'
          (fun x hx => State.get_push_lt s n x (inv.elem_parent i x hx).1 ▸ rfl)]
      exact inv.map_last i n'
    · subst hi
      rw [State.get_push_len, h1, h2]
      rfl
    · rw [State.get_push_ge _ _ _ (by omega)]
      rfl

theorem arenaInv_init (nm : String) : ArenaInv (EasyXML.init nm) := by
  constructor
  · intro i q hq
    cases i with
    | zero =>
      rw [show (EasyXML.init nm).get 0 = ⟨nm, none, [], [], []⟩ from rfl] at hq
      exact absurd hq (by simp)
    | succ i =>
      rw [show (EasyXML.init nm).get (i + 1) = default from rfl] at hq
      exact absurd hq (by simp)
  · intro i x hx
    cases i with
    | zero =>
      rw [show (EasyXML.init nm).get 0 = ⟨nm, none, [], [], []⟩ from rfl] at hx
      exact absurd hx (by simp)
    | succ i =>
      rw [show (EasyXML.init nm).get (i + 1) = default from rfl] at hx
      exact absurd hx (List.not_mem_nil x)
  · intro i n
    cases i with
    | zero => rfl
    | succ i => rfl

theorem reachable_inv (s : State) (h : Reachable s) : ArenaInv s := by
  induction h with
  | init nm => exact arenaInv_init nm
  | access s id nm hr hlt ih =>
    by_cases hu : EasyXML.underscoreFirst nm
    · simpa [EasyXML.getattr, hu] using ih
    · cases hdl : dictLookup (s.get id).element_map nm with
      | some e => simpa [EasyXML.getattr, hu, EasyXML.getattrChild, hdl] using ih
      | none =>
        have : (EasyXML.getattr s id nm).1 = s.push ⟨nm, some id, [], [], []⟩ := by
          simp [EasyXML.getattr, hu, EasyXML.getattrChild, hdl]
        rw [this]
        exact arenaInv_push s _ ih rfl rfl
          (fun p hp => by injection hp with hp; omega)
  | commit s id kw hr hlt ih =>
    unfold EasyXML.call
    apply arenaInv_attachLoop
    exact arenaInv_push s _ ih rfl rfl
      (fun p hp => by
        have := ih.parent_lt id p hp
        omega)

end InvariantLemmas

section ChainLemmas

theorem reachable_c1State : Reachable c1State :=
  Reachable.commit _ 4 [("x", .int 2)]
    (Reachable.commit _ 3 [("x", .int 1)]
      (Reachable.access _ 2 "c"
        (Reachable.access _ 1 "b"
          (Reachable.access _ 0 "a" (Reachable.init "root") (by decide))
          (by decide))
        (by decide))
      (by decide))
    (by decide)

theorem reachable_c5State : Reachable c5State :=
  Reachable.commit _ 2 [("n", .int 2)]
    (Reachable.commit _ 1 [("n", .int 1)]
      (Reachable.access _ 0 "book" (Reachable.init "books") (by decide))
      (by decide))
    (by decide)

theorem chainLenF_congr_lt (s s' : State) (bound : Nat)
    (hlt : ∀ i q, (s.get i).parent = some q → q < i)
    (hp : ∀ x, x < bound → (s'.get x).parent = (s.get x).parent) :
    ∀ f i, i < bound → chainLenF s' f i = chainLenF s f i := by
  intro f
  induction f with
  | zero => intro i hi; rfl
  | succ f ih =>
    intro i hi
    cases hpar : (s.get i).parent with
    | none => simp only [chainLenF, hp i hi, hpar]
    | some q =>
      have hq : q < i := hlt i q hpar
      simp only [chainLenF, hp i hi, hpar]
      rw [ih q (by omega)]

theorem chainLenF_congr (s s' : State)
    (hp : ∀ x, (s'.get x).parent = (s.get x).parent) :
    ∀ f i, chainLenF s' f i = chainLenF s f i := by
  intro f
  induction f with
  | zero => intro i; rfl
  | succ f ih =>
    intro i
    cases hpar : (s.get i).parent with
    | none => simp only [chainLenF, hp i, hpar]
    | some q =>
      simp only [chainLenF, hp i, hpar]
      rw [ih q]

theorem chainLenF_stable (s : State)
    (hlt : ∀ i p, (s.get i).parent = some p → p < i) :
    ∀ i f, i < f → chainLenF s f i = pchainLen s i := by
  intro i
  induction i using Nat.strong_induction_on with
  | _ i ihs =>
    intro f hf
    obtain ⟨g, rfl⟩ : ∃ g, f = g + 1 := ⟨f - 1, by omega⟩
    unfold pchainLen
    cases hpar : (s.get i).parent with
    | none => simp only [chainLenF, hpar]
    | some p =>
      have hpi : p < i := hlt i p hpar
      simp only [chainLenF, hpar]
      rw [show chainLenF s g p = pchainLen s p from ihs p hpi g (by omega),
        show chainLenF s i p = pchainLen s p from ihs p hpi i (by omega)]

theorem pchainLen_le (s : State)
    (hlt : ∀ i p, (s.get i).parent = some p → p < i) :
    ∀ i, pchainLen s i ≤ i := by
  intro i
  induction i using Nat.strong_induction_on with
  | _ i ihs =>
    unfold pchainLen
    cases hpar : (s.get i).parent with
    | none =>
      simp only [chainLenF, hpar]
      omega
    | some p =>
      have hpi : p < i := hlt i p hpar
      simp only [chainLenF, hpar]
      rw [chainLenF_stable s hlt p i hpi]
      have := ihs p hpi
      omega

theorem attachLoop_step (f : Nat) (s : State) (e p : Nat)
    (hpar : (s.get e).parent = some p)
    (hmem : e ∉ dictValues (s.get p).element_map) :
    EasyXML.attachLoop (f + 1) s e
      = EasyXML.attachLoop f (s.set p { s.get p with
          elements := (s.get p).elements ++ [e],
          element_map := dictSet (s.get p).element_map (s.get e).name e }) p := by
  simp only [EasyXML.attachLoop, hpar, hmem, if_false]

theorem attachLoop_stop (f : Nat) (s : State) (e p : Nat)
    (hpar : (s.get e).parent = some p)
    (hmem : e ∈ dictValues (s.get p).element_map) :
    EasyXML.attachLoop f s e = s := by
  cases f with
  | zero => rfl
  | succ f => simp [EasyXML.attachLoop, hpar, hmem]

theorem attachLoop_fuel_irrel (n : Nat) :
    ∀ s e f f', (∀ i p, (s.get i).parent = some p → p < i) →
      pchainLen s e ≤ n → pchainLen s e ≤ f → pchainLen s e ≤ f' →
      EasyXML.attachLoop f s e = EasyXML.attachLoop f' s e := by
  induction n with
  | zero =>
    intro s e f f' hlt h0 hf hf'
    have hpar : (s.get e).parent = none := by
      cases hpar : (s.get e).parent with
      | none => rfl
      | some p =>
        exfalso
        have : pchainLen s e = chainLenF s e p + 1 := by
          unfold pchainLen
          simp [chainLenF, hpar]
        omega
    rw [attachLoop_parent_none _ _ _ hpar, attachLoop_parent_none _ _ _ hpar]
  | succ n ih =>
    intro s e f f' hlt h0 hf hf'
    cases hpar : (s.get e).parent with
    | none => rw [attachLoop_parent_none _ _ _ hpar, attachLoop_parent_none _ _ _ hpar]
    | some p =>
      have hpe : p < e := hlt e p hpar
      have hchain : pchainLen s e = pchainLen s p + 1 := by
        have h1 : pchainLen s e = chainLenF s e p + 1 := by
          unfold pchainLen
          simp only [chainLenF, hpar]
        rw [h1, chainLenF_stable s hlt p e hpe]
      rcases f with _ | g
      · omega
      rcases f' with _ | g'
      · omega
      by_cases hmem : e ∈ dictValues (s.get p).element_map
      · rw [attachLoop_stop _ s e p hpar hmem, attachLoop_stop _ s e p hpar hmem]
      · rw [attachLoop_step g s e p hpar hmem, attachLoop_step g' s e p hpar hmem]
        have hps : ∀ x, (((s.set p { s.get p with
            elements := (s.get p).elements ++ [e],
            element_map := dictSet (s.get p).element_map (s.get e).name e }).get x)).parent
            = (s.get x).parent := get_set_parent s p _ rfl
        have hlt' : ∀ i q, (((s.set p { s.get p with
            elements := (s.get p).elements ++ [e],
            element_map := dictSet (s.get p).element_map (s.get e).name e }).get i)).parent
            = some q → q < i := fun i q hq => hlt i q (hps i ▸ hq)
        have hch' : pchainLen (s.set p { s.get p with
            elements := (s.get p).elements ++ [e],
            element_map := dictSet (s.get p).element_map (s.get e).name e }) p
            = pchainLen s p := by
          unfold pchainLen
          exact chainLenF_congr s _ hps _ p
        exact ih _ p g g' hlt' (by omega) (by omega) (by omega)

theorem pchainLen_push_eq (s : State) (n : Node) (id : Nat) (hid : id < s.len)
    (hlt : ∀ i q, (s.get i).parent = some q → q < i)
    (hnp : n.parent = (s.get id).parent) :
    pchainLen (s.push n) s.len = pchainLen s id := by
  have hparents : ∀ x, x < s.len → ((s.push n).get x).parent = (s.get x).parent :=
    fun x hx => by rw [State.get_push_lt _ _ _ hx]
  have hp1 : ((s.push n).get s.len).parent = (s.get id).parent := by
    rw [State.get_push_len, hnp]
  cases hpar : (s.get id).parent with
  | none =>
    have h0 : ((s.push n).get s.len).parent = none := hp1.trans hpar
    unfold pchainLen
    simp only [chainLenF, h0, hpar]
  | some p =>
    have h0 : ((s.push n).get s.len).parent = some p := hp1.trans hpar
    have hps : p < s.len := by
      have := hlt id p hpar
      omega
    have h1 : pchainLen (s.push n) s.len = chainLenF (s.push n) s.len p + 1 := by
      unfold pchainLen
      simp only [chainLenF, h0]
    have h2 : pchainLen s id = chainLenF s id p + 1 := by
      unfold pchainLen
      simp only [chainLenF, hpar]
    rw [h1, h2, chainLenF_congr_lt s _ s.len hlt hparents s.len p hps,
      chainLenF_stable s hlt p s.len hps, chainLenF_stable s hlt p id (hlt id p hpar)]

end ChainLemmas

/-- C5 counterexample: after the reachable sequence `books = EasyXML('books');
books.book(n=1); books.book(n=2)` the first committed `book` node is present
in the root's child list but the root's map entry for `book` is the second
sibling, so the node is committed yet not the value stored under its own
name — the claimed dichotomy fails. -/
theorem c5_counterexample : Reachable c5State ∧ ¬ ClaimC5At c5State :=
  ⟨reachable_c5State, by decide⟩

/-- C5 amended: in every reachable arena, every non-root node is either a
cursor (present in no node's child list and in no node's map) or a committed
node present only in its unique parent's child list; a map entry can point
to it only in that parent, only under its own name, and only when it is the
most recently appended same-named sibling — older same-named siblings stay
in the child list without being the map entry. -/
theorem c5_cursor_or_committed (s : State) (h : Reachable s) (i : Nat)
    (h0 : 0 < i) (hi : i < s.len) :
    ((∀ q, i ∉ (s.get q).elements) ∧
      (∀ q n, dictLookup (s.get q).element_map n ≠ some i))
    ∨ (∃ p, (s.get i).parent = some p ∧ i ∈ (s.get p).elements ∧
        (∀ q, i ∈ (s.get q).elements → q = p) ∧
        (∀ q n, dictLookup (s.get q).element_map n = some i →
          q = p ∧ n = (s.get i).name ∧ lastNamed s (s.get p).elements n = some i)) := by
  have inv := reachable_inv s h
  have hmem_par : ∀ q, i ∈ (s.get q).elements → (s.get i).parent = some q :=
    fun q hq => (inv.elem_parent q i hq).2
  have hmap_mem : ∀ q n, dictLookup (s.get q).element_map n = some i →
      i ∈ (s.get q).elements ∧ (s.get i).name = n := by
    intro q n hq
    rw [inv.map_last q n] at hq
    exact lastNamed_mem s _ n i hq
  cases hpar : (s.get i).parent with
  | none =>
    left
    constructor
    · intro q hq
      rw [hmem_par q hq] at hpar
      exact absurd hpar (by simp)
    · intro q n hq
      rw [hmem_par q (hmap_mem q n hq).1] at hpar
      exact absurd hpar (by simp)
  | some p =>
    by_cases hmem : i ∈ (s.get p).elements
    · right
      refine ⟨p, rfl, hmem, ?_, ?_⟩
      · intro q hq
        have := hmem_par q hq
        rw [hpar] at this
        injection this with this
        exact this.symm
      · intro q n hq
        obtain ⟨hq1, hq2⟩ := hmap_mem q n hq
        have hqp : q = p := by
          have := hmem_par q hq1
          rw [hpar] at this
          injection this with this
          exact this.symm
        subst hqp
        refine ⟨rfl, hq2.symm, ?_⟩
        rw [← inv.map_last q n]
        exact hq
    · left
      constructor
      · intro q hq
        have := hmem_par q hq
        rw [hpar] at this
        injection this with this
        exact absurd (this ▸ hq) hmem
      · intro q n hq
        obtain ⟨hq1, -⟩ := hmap_mem q n hq
        have := hmem_par q hq1
        rw [hpar] at this
        injection this with this
        exact absurd (this ▸ hq1) hmem

/-- C5 amended witness: the first `book` sibling in the two-sibling scenario
satisfies the amended dichotomy (it is committed, only in the root's list,
and no map entry points at it since its sibling is newer). -/
theorem c5_cursor_or_committed_witness :
    ((∀ q, 2 ∉ (c5State.get q).elements) ∧
      (∀ q n, dictLookup (c5State.get q).element_map n ≠ some 2))
    ∨ (∃ p, (c5State.get 2).parent = some p ∧ 2 ∈ (c5State.get p).elements ∧
        (∀ q, 2 ∈ (c5State.get q).elements → q = p) ∧
        (∀ q n, dictLookup (c5State.get q).element_map n = some 2 →
          q = p ∧ n = (c5State.get 2).name ∧
          lastNamed c5State (c5State.get p).elements n = some 2)) :=
  c5_cursor_or_committed c5State reachable_c5State 2 (by decide) (by decide)

/-- C9: in every reachable arena, a map entry `n ↦ e` of node `p` is the
most recently appended element of `p`'s child list whose name is `n`; in
particular `e` is in the list with name `n`, and a subsequent (non-internal)
child access for `n` on `p` returns exactly `e`, the newest same-named
sibling. -/
theorem c9_map_entry_newest (s : State) (h : Reachable s) (p : Nat) (n : String) (e : Nat)
    (hm : dictLookup (s.get p).element_map n = some e) :
    lastNamed s (s.get p).elements n = some e ∧
    e ∈ (s.get p).elements ∧ (s.get e).name = n ∧
    (EasyXML.underscoreFirst n = false →
      EasyXML.getattr s p n = (s, EasyXML.AttrRef.child e)) := by
  have inv := reachable_inv s h
  have hl : lastNamed s (s.get p).elements n = some e := by
    rw [← inv.map_last p n]
    exact hm
  obtain ⟨hmem, hname⟩ := lastNamed_mem s _ n e hl
  refine ⟨hl, hmem, hname, fun hu => ?_⟩
  simp [EasyXML.getattr, hu, EasyXML.getattrChild, hm]

/-- C9 witness: in the two-commit scenario the map entry `c ↦ 5` of node `b`
is the newest of the two `c` siblings `[4, 5]`, and accessing `c` on `b`
returns node 5. -/
theorem c9_map_entry_newest_witness :
    lastNamed c1State (c1State.get 2).elements "c" = some 5 ∧
    5 ∈ (c1State.get 2).elements ∧ (c1State.get 5).name = "c" ∧
    (EasyXML.underscoreFirst "c" = false →
      EasyXML.getattr c1State 2 "c" = (c1State, EasyXML.AttrRef.child 5)) :=
  c9_map_entry_newest c1State reachable_c1State 2 "c" 5 (by decide)

/-- C10: on every reachable arena a commit terminates, and the upward attach
loop needs at most as many iterations as the length of the invoked node's
parent chain: running the loop with exactly that much fuel already produces
the call's result (the call itself supplies the larger fuel `s1.len`). -/
theorem c10_commit_loop_bounded (s : State) (id : Nat) (kw : List (String × PyVal))
    (h : Reachable s) (hid : id < s.len) :
    pchainLen (s.push ⟨(s.get id).name, (s.get id).parent, [], kw, []⟩) s.len
      = pchainLen s id ∧
    EasyXML.call s id kw
      = EasyXML.attachLoop (pchainLen s id)
          (s.push ⟨(s.get id).name, (s.get id).parent, [], kw, []⟩) s.len := by
  have inv := reachable_inv s h
  have inv1 : ArenaInv (s.push ⟨(s.get id).name, (s.get id).parent, [], kw, []⟩) :=
    arenaInv_push s _ inv rfl rfl (fun p hp => by
      have := inv.parent_lt id p hp
      omega)
  have hparents : ∀ x, x < s.len →
      ((s.push ⟨(s.get id).name, (s.get id).parent, [], kw, []⟩).get x).parent
        = (s.get x).parent :=
    fun x hx => by rw [State.get_push_lt _ _ _ hx]
  have hchain : pchainLen (s.push ⟨(s.get id).name, (s.get id).parent, [], kw, []⟩) s.len
      = pchainLen s id :=
    pchainLen_push_eq s _ id hid inv.parent_lt rfl
  refine ⟨hchain, ?_⟩
  show EasyXML.attachLoop _ _ _ = _
  rw [← hchain]
  exact attachLoop_fuel_irrel
    (pchainLen (s.push ⟨(s.get id).name, (s.get id).parent, [], kw, []⟩) s.len)
    _ s.len _ _ inv1.parent_lt le_rfl
    (le_trans (pchainLen_le _ inv1.parent_lt s.len) (by rw [State.len_push]; omega))
    le_rfl

/-- C10 witness: committing on the newest `c` node of the two-commit
scenario (parent chain `b`, `a`, `root` of length 3) needs only 3 loop
iterations. -/
theorem c10_commit_loop_bounded_witness :
    pchainLen (c1State.push ⟨(c1State.get 4).name, (c1State.get 4).parent, [],
        [("x", PyVal.int 3)], []⟩) c1State.len = pchainLen c1State 4 ∧
    EasyXML.call c1State 4 [("x", PyVal.int 3)]
      = EasyXML.attachLoop (pchainLen c1State 4)
          (c1State.push ⟨(c1State.get 4).name, (c1State.get 4).parent, [],
            [("x", PyVal.int 3)], []⟩) c1State.len :=
  c10_commit_loop_bounded c1State 4 [("x", PyVal.int 3)] reachable_c1State (by decide)

section ClaimC2

theorem range'_concat_one (s n : Nat) :
    List.range' s (n + 1) = List.range' s n ++ [s + n] := by
  have h : List.range' s (n + 1) 1 = List.range' s n 1 ++ [s + 1 * n] :=
    List.range'_concat s n
  simpa using h

theorem getD_append_len {α : Type} (l1 l2 : List α) (x d : α) :
    (l1 ++ x :: l2).getD l1.length d = x := by
  rw [List.getD_eq_getElem?_getD, List.getElem?_append_right (le_refl _)]
  simp

theorem cursorChain_length (names : List String) :
    ∀ parent firstId, (cursorChain parent firstId names).length = names.length := by
  induction names with
  | nil => intro parent firstId; rfl
  | cons nm rest ih => intro parent firstId; simp [cursorChain, ih]

theorem cursorChain_map_nil (names : List String) :
    ∀ parent firstId, ∀ x ∈ cursorChain parent firstId names, x.element_map = [] := by
  induction names with
  | nil => intro parent firstId x hx; exact absurd hx (List.not_mem_nil x)
  | cons nm rest ih =>
    intro parent firstId x hx
    rcases List.mem_cons.mp hx with hx | hx
    · rw [hx]
    · exact ih firstId (firstId + 1) x hx

theorem cursorChain_getD (names : List String) :
    ∀ parent firstId i, i < names.length →
      (cursorChain parent firstId names).getD i default
        = ⟨names.getD i "", some (if i = 0 then parent else firstId + i - 1),
            [], [], []⟩ := by
  induction names with
  | nil => intro parent firstId i hi; simp at hi
  | cons nm rest ih =>
    intro parent firstId i hi
    cases i with
    | zero => simp [cursorChain]
    | succ i =>
      simp only [cursorChain, List.getD_cons_succ, List.getD_cons_zero]
      rw [ih firstId (firstId + 1) i (by simpa using hi)]
      have h2 : (if i = 0 then firstId else firstId + 1 + i - 1)
          = (if i + 1 = 0 then parent else firstId + (i + 1) - 1) := by
        rw [if_neg (by omega : ¬ (i + 1 = 0))]
        split <;> omega
      rw [h2]

theorem getattrChain_fresh_state (names : List String) :
    ∀ s id, (∀ j, (s.get j).element_map = []) →
      (EasyXML.getattrChain s id names).1 = ⟨s.nodes ++ cursorChain id s.len names⟩ := by
  induction names with
  | nil =>
    intro s id h
    show s = _
    simp [cursorChain]
  | cons nm rest ih =>
    intro s id h
    have hlook : dictLookup (s.get id).element_map nm = none := by rw [h id]; rfl
    have hmaps : ∀ j, ((s.push ⟨nm, some id, [], [], []⟩).get j).element_map = [] := by
      intro j
      rcases Nat.lt_trichotomy j s.len with hj | hj | hj
      · rw [State.get_push_lt _ _ _ hj]; exact h j
      · subst hj; rw [State.get_push_len]
      · rw [State.get_push_ge _ _ _ (by omega)]; rfl
    have hrec := ih (s.push ⟨nm, some id, [], [], []⟩) s.len hmaps
    simp only [EasyXML.getattrChain, EasyXML.getattrChild, hlook]
    rw [hrec, State.len_push]
    show State.mk ((s.nodes ++ [_]) ++ _) = _
    simp [cursorChain, List.append_assoc]

theorem getattrChain_fresh_target (names : List String) :
    ∀ s id, (∀ j, (s.get j).element_map = []) → names ≠ [] →
      (EasyXML.getattrChain s id names).2 = s.len + names.length - 1 := by
  induction names with
  | nil => intro s id h hne; exact absurd rfl hne
  | cons nm rest ih =>
    intro s id h hne
    have hlook : dictLookup (s.get id).element_map nm = none := by rw [h id]; rfl
    have hmaps : ∀ j, ((s.push ⟨nm, some id, [], [], []⟩).get j).element_map = [] := by
      intro j
      rcases Nat.lt_trichotomy j s.len with hj | hj | hj
      · rw [State.get_push_lt _ _ _ hj]; exact h j
      · subst hj; rw [State.get_push_len]
      · rw [State.get_push_ge _ _ _ (by omega)]; rfl
    simp only [EasyXML.getattrChain, EasyXML.getattrChild, hlook]
    cases rest with
    | nil => simp [EasyXML.getattrChain]
    | cons r rs =>
      rw [ih (s.push ⟨nm, some id, [], [], []⟩) s.len hmaps (by simp), State.len_push]
      simp only [List.length_cons]
      omega

theorem midWalk (rt : String) (pre : List String) (leaf : String)
    (A : List (String × PyVal)) :
    ∀ j s f, MidShape s rt pre leaf A j → j ≤ pre.length → j < f →
      MidShape (EasyXML.attachLoop f s j) rt pre leaf A 0 := by
  intro j
  induction j with
  | zero =>
    intro s f hm h0 hf
    obtain ⟨hlen, hlow, hmid, hknode, hleaf⟩ := hm
    have hpar : (s.get 0).parent = none := by
      by_cases h : 0 < pre.length
      · rw [hmid 0 (le_refl 0) h]
        rfl
      · have h0' : pre.length = 0 := by omega
        have hrec := hknode (by omega)
        rw [h0'] at hrec
        rw [hrec]
        rfl
    rw [attachLoop_parent_none _ _ _ hpar]
    exact ⟨hlen, hlow, hmid, hknode, hleaf⟩
  | succ j ih =>
    intro s f hm hk hf
    obtain ⟨hlen, hlow, hmid, hknode, hleaf⟩ := hm
    have hj1 : (s.get (j + 1)).name = chainName rt pre (j + 1) ∧
        (s.get (j + 1)).parent = parentOf (j + 1) := by
      by_cases h : j + 1 < pre.length
      · rw [hmid (j + 1) (le_refl _) h]
        exact ⟨rfl, rfl⟩
      · have he : pre.length = j + 1 := by omega
        have hrec := hknode (by omega)
        rw [he] at hrec
        rw [hrec]
        exact ⟨rfl, rfl⟩
    have hpar : (s.get (j + 1)).parent = some j := by
      rw [hj1.2]
      simp [parentOf]
    have hmem : (j + 1) ∉ dictValues (s.get j).element_map := by
      rw [hlow j (by omega)]
      simp [dictValues]
    obtain ⟨g, rfl⟩ : ∃ g, f = g + 1 := ⟨f - 1, by omega⟩
    rw [attachLoop_step g s (j + 1) j hpar hmem]
    have hgj : s.get j = ⟨chainName rt pre j, parentOf j, [], [], []⟩ := hlow j (by omega)
    apply ih _ g ?_ (by omega) (by omega)
    refine ⟨by rw [State.len_set]; exact hlen, ?_, ?_, ?_, ?_⟩
    · intro i hi
      rw [State.get_set_ne _ _ _ _ (by omega)]
      exact hlow i (by omega)
    · intro i hji hik
      by_cases hij : i = j
      · subst hij
        rw [State.get_set_self _ _ _ (by omega), hgj, hj1.1]
        rfl
      · rw [State.get_set_ne _ _ _ _ hij]
        exact hmid i (by omega) hik
    · intro hjk
      rw [State.get_set_ne _ _ _ _ (by omega)]
      exact hknode (by omega)
    · rw [State.get_set_ne _ _ _ _ (by omega)]
      exact hleaf

theorem init_maps_nil (rt : String) : ∀ j, ((EasyXML.init rt).get j).element_map = [] := by
  intro j
  cases j with
  | zero => rfl
  | succ j => rfl

theorem midShape_chainShape (rt : String) (pre : List String) (leaf : String)
    (A : List (String × PyVal)) (s : State) (hm : MidShape s rt pre leaf A 0) :
    ChainShape s rt pre leaf [A] := by
  obtain ⟨hlen, hlow, hmid, hknode, hleaf⟩ := hm
  refine ⟨by simpa using hlen, ?_, ?_, ?_⟩
  · intro j hj
    exact hmid j (by omega) hj
  · rw [hknode (by omega)]
    simp
  · intro i hi
    have hi0 : i = 0 := by simpa using hi
    subst hi0
    simpa using hleaf

theorem chainShape_first (rt : String) (pre : List String) (leaf : String)
    (A : List (String × PyVal)) :
    ChainShape (EasyXML.commitPath (EasyXML.init rt) 0 (pre ++ [leaf]) A) rt pre leaf [A] := by
  have hmaps0 := init_maps_nil rt
  have hstate := getattrChain_fresh_state (pre ++ [leaf]) (EasyXML.init rt) 0 hmaps0
  have htgt := getattrChain_fresh_target (pre ++ [leaf]) (EasyXML.init rt) 0 hmaps0 (by simp)
  rw [show (EasyXML.init rt).nodes = [⟨rt, none, [], [], []⟩] from rfl,
    show (EasyXML.init rt).len = 1 from rfl, List.singleton_append] at hstate
  rw [show (EasyXML.init rt).len = 1 from rfl] at htgt
  have htgt' : (EasyXML.getattrChain (EasyXML.init rt) 0 (pre ++ [leaf])).2
      = pre.length + 1 := by
    rw [htgt, List.length_append]
    simp
  set S : State := ⟨⟨rt, none, [], [], []⟩ :: cursorChain 0 1 (pre ++ [leaf])⟩ with hS
  have hSlen : S.len = pre.length + 2 := by
    rw [hS]
    unfold State.len
    simp [cursorChain_length]
  have hSget0 : S.get 0 = ⟨rt, none, [], [], []⟩ := rfl
  have hSgetc : ∀ j, j < pre.length + 1 →
      S.get (j + 1) = ⟨(pre ++ [leaf]).getD j "", some j, [], [], []⟩ := by
    intro j hj
    rw [hS]
    show ((⟨rt, none, [], [], []⟩ : Node) :: cursorChain 0 1 (pre ++ [leaf])).getD (j + 1)
        default = _
    rw [List.getD_cons_succ, cursorChain_getD (pre ++ [leaf]) 0 1 j (by simp; omega)]
    have hif : (if j = 0 then 0 else 1 + j - 1) = j := by split <;> omega
    rw [hif]
  have hSchain : ∀ i, i ≤ pre.length →
      S.get i = ⟨chainName rt pre i, parentOf i, [], [], []⟩ := by
    intro i hi
    cases i with
    | zero => rw [hSget0]; rfl
    | succ i =>
      rw [hSgetc i (by omega), List.getD_append _ _ _ _ (by omega)]
      simp [chainName, parentOf]
  have hStgt : S.get (pre.length + 1) = ⟨leaf, some pre.length, [], [], []⟩ := by
    rw [hSgetc pre.length (by omega)]
    rw [show pre ++ [leaf] = pre ++ leaf :: [] from rfl, getD_append_len]
  have hcall : EasyXML.call S (pre.length + 1) A
      = EasyXML.attachLoop (S.len + 1) (S.push ⟨leaf, some pre.length, [], A, []⟩) S.len := by
    simp only [EasyXML.call]
    rw [hStgt, State.len_push]
  have hpush_get : (S.push ⟨leaf, some pre.length, [], A, []⟩).get (pre.length + 2)
      = ⟨leaf, some pre.length, [], A, []⟩ := by
    rw [← hSlen]
    exact State.get_push_len S _
  have hpgetlt : ∀ x, x < pre.length + 2 →
      (S.push ⟨leaf, some pre.length, [], A, []⟩).get x = S.get x := by
    intro x hx
    exact State.get_push_lt S _ x (by rw [hSlen]; exact hx)
  simp only [EasyXML.commitPath]
  rw [hstate, htgt', hcall, hSlen]
  have hmem1 : (pre.length + 2) ∉
      dictValues ((S.push ⟨leaf, some pre.length, [], A, []⟩).get pre.length).element_map := by
    rw [hpgetlt pre.length (by omega), hSchain pre.length (le_refl _)]
    simp [dictValues]
  rw [attachLoop_step (pre.length + 2) _ (pre.length + 2) pre.length
    (by rw [hpush_get]) hmem1]
  apply midShape_chainShape
  apply midWalk rt pre leaf A pre.length _ (pre.length + 2) ?_ (le_refl _) (by omega)
  refine ⟨?_, ?_, ?_, ?_, ?_⟩
  · rw [State.len_set, State.len_push, hSlen]
  · intro i hi
    rw [State.get_set_ne _ _ _ _ (by omega), hpgetlt i (by omega)]
    exact hSchain i (by omega)
  · intro i hki hik
    omega
  · intro _
    rw [State.get_set_self _ _ _ (by rw [State.len_push, hSlen]; omega)]
    rw [hpgetlt pre.length (by omega), hSchain pre.length (le_refl _), hpush_get]
    rfl
  · rw [State.get_set_ne _ _ _ _ (by omega), hpush_get]

theorem chainShape_resolve (rt : String) (pre : List String) (leaf : String)
    (As : List (List (String × PyVal))) (s : State)
    (hcs : ChainShape s rt pre leaf As) :
    ∀ suffix taken, pre = taken ++ suffix →
      EasyXML.getattrChain s taken.length (suffix ++ [leaf])
        = (s, pre.length + 1 + As.length) := by
  obtain ⟨hlen, hchain, hk, hleaf⟩ := hcs
  intro suffix
  induction suffix with
  | nil =>
    intro taken hpre
    have htl : taken.length = pre.length := by rw [hpre]; simp
    rw [htl]
    simp [EasyXML.getattrChain, EasyXML.getattrChild, hk, dictLookup]
  | cons nm rest ih =>
    intro taken hpre
    have hlt : taken.length < pre.length := by
      rw [hpre, List.length_append, List.length_cons]
      omega
    have hgetD : pre.getD taken.length "" = nm := by
      rw [hpre]
      exact getD_append_len taken rest nm ""
    have hcn : chainName rt pre (taken.length + 1) = nm := by
      unfold chainName
      rw [if_neg (by omega)]
      simpa using hgetD
    show EasyXML.getattrChain s taken.length ((nm :: rest) ++ [leaf]) = _
    simp only [List.cons_append, EasyXML.getattrChain, EasyXML.getattrChild]
    rw [hchain taken.length hlt, hcn]
    simp only [dictLookup, if_pos rfl]
    have hrec := ih (taken ++ [nm]) (by rw [hpre]; simp)
    simpa using hrec

theorem chainShape_step (rt : String) (pre : List String) (leaf : String)
    (As : List (List (String × PyVal))) (A : List (String × PyVal)) (s : State)
    (hcs : ChainShape s rt pre leaf As) (hne : As ≠ []) :
    ChainShape (EasyXML.commitPath s 0 (pre ++ [leaf]) A) rt pre leaf (As ++ [A]) := by
  have hres := chainShape_resolve rt pre leaf As s hcs pre [] (by simp)
  obtain ⟨hlen, hchain, hk, hleaf⟩ := hcs
  obtain ⟨N0, hN⟩ : ∃ m, As.length = m + 1 := by
    cases As with
    | nil => exact absurd rfl hne
    | cons a as => exact ⟨as.length, by simp⟩
  have htgtnode : s.get (pre.length + 1 + As.length)
      = ⟨leaf, some pre.length, [], As.getD N0 [], []⟩ := by
    have h0 := hleaf N0 (by omega)
    rw [show pre.length + 2 + N0 = pre.length + 1 + As.length by omega] at h0
    exact h0
  simp only [EasyXML.commitPath]
  rw [show (EasyXML.getattrChain s 0 (pre ++ [leaf])).1
      = (EasyXML.getattrChain s (List.length ([] : List String)) (pre ++ [leaf])).1 from rfl,
    show (EasyXML.getattrChain s 0 (pre ++ [leaf])).2
      = (EasyXML.getattrChain s (List.length ([] : List String)) (pre ++ [leaf])).2 from rfl,
    hres]
  have hcall : EasyXML.call s (pre.length + 1 + As.length) A
      = EasyXML.attachLoop (s.len + 1) (s.push ⟨leaf, some pre.length, [], A, []⟩) s.len := by
    simp only [EasyXML.call]
    rw [htgtnode, State.len_push]
  rw [hcall]
  have hpush_get : (s.push ⟨leaf, some pre.length, [], A, []⟩).get s.len
      = ⟨leaf, some pre.length, [], A, []⟩ := State.get_push_len s _
  have hpgetlt : ∀ x, x < s.len →
      (s.push ⟨leaf, some pre.length, [], A, []⟩).get x = s.get x :=
    fun x hx => State.get_push_lt s _ x hx
  have hklt : pre.length < s.len := by omega
  have hpk : (s.push ⟨leaf, some pre.length, [], A, []⟩).get pre.length
      = ⟨chainName rt pre pre.length, parentOf pre.length,
          List.range' (pre.length + 2) As.length, [],
          [(leaf, pre.length + 1 + As.length)]⟩ := by
    rw [hpgetlt pre.length hklt, hk]
  have hmem1 : s.len ∉
      dictValues ((s.push ⟨leaf, some pre.length, [], A, []⟩).get pre.length).element_map := by
    rw [hpk]
    simp [dictValues]
    omega
  rw [attachLoop_step s.len _ s.len pre.length (by rw [hpush_get]) hmem1]
  have hfinal : ChainShape
      ((s.push ⟨leaf, some pre.length, [], A, []⟩).set pre.length
        { (s.push ⟨leaf, some pre.length, [], A, []⟩).get pre.length with
          elements := ((s.push ⟨leaf, some pre.length, [], A, []⟩).get pre.length).elements
            ++ [s.len],
          element_map := dictSet
            ((s.push ⟨leaf, some pre.length, [], A, []⟩).get pre.length).element_map
            ((s.push ⟨leaf, some pre.length, [], A, []⟩).get s.len).name s.len })
      rt pre leaf (As ++ [A]) := by
    have hsetlen : pre.length < (s.push ⟨leaf, some pre.length, [], A, []⟩).len := by
      rw [State.len_push]
      omega
    refine ⟨?_, ?_, ?_, ?_⟩
    · rw [State.len_set, State.len_push, hlen]
      simp
      omega
    · intro j hj
      rw [State.get_set_ne _ _ _ _ (by omega), hpgetlt j (by omega)]
      exact hchain j hj
    · rw [State.get_set_self _ _ _ hsetlen, hpk, hpush_get]
      show Node.mk _ _ (List.range' (pre.length + 2) As.length ++ [s.len]) _
          (dictSet [(leaf, pre.length + 1 + As.length)] leaf s.len) = _
      rw [hlen, show List.range' (pre.length + 2) As.length ++ [pre.length + 2 + As.length]
          = List.range' (pre.length + 2) (As.length + 1) from (range'_concat_one _ _).symm]
      simp [dictSet]
      omega
    · intro i hi
      rw [List.length_append, List.length_cons, List.length_nil] at hi
      by_cases hiN : i < As.length
      · rw [State.get_set_ne _ _ _ _ (by omega), hpgetlt (pre.length + 2 + i) (by omega),
          hleaf i hiN, List.getD_append _ _ _ _ hiN]
      · have hiN' : i = As.length := by omega
        subst hiN'
        rw [show pre.length + 2 + As.length = s.len from hlen.symm,
          State.get_set_ne _ _ _ _ (by omega), hpush_get,
          show As ++ [A] = As ++ A :: [] from rfl, getD_append_len]
  by_cases hk0 : pre.length = 0
  · have hpar0 : (((s.push ⟨leaf, some pre.length, [], A, []⟩).set pre.length
        { (s.push ⟨leaf, some pre.length, [], A, []⟩).get pre.length with
          elements := ((s.push ⟨leaf, some pre.length, [], A, []⟩).get pre.length).elements
            ++ [s.len],
          element_map := dictSet
            ((s.push ⟨leaf, some pre.length, [], A, []⟩).get pre.length).element_map
            ((s.push ⟨leaf, some pre.length, [], A, []⟩).get s.len).name s.len }).get
          pre.length).parent = none := by
      rw [State.get_set_self _ _ _ (by rw [State.len_push]; omega), hpk]
      simp [parentOf, hk0]
    rw [attachLoop_parent_none _ _ _ hpar0]
    exact hfinal
  · have hpar2 : (((s.push ⟨leaf, some pre.length, [], A, []⟩).set pre.length
        { (s.push ⟨leaf, some pre.length, [], A, []⟩).get pre.length with
          elements := ((s.push ⟨leaf, some pre.length, [], A, []⟩).get pre.length).elements
            ++ [s.len],
          element_map := dictSet
            ((s.push ⟨leaf, some pre.length, [], A, []⟩).get pre.length).element_map
            ((s.push ⟨leaf, some pre.length, [], A, []⟩).get s.len).name s.len }).get
          pre.length).parent = some (pre.length - 1) := by
      rw [State.get_set_self _ _ _ (by rw [State.len_push]; omega), hpk]
      simp [parentOf, hk0]
    have hstop : pre.length ∈ dictValues ((((s.push ⟨leaf, some pre.length, [], A, []⟩).set
        pre.length
        { (s.push ⟨leaf, some pre.length, [], A, []⟩).get pre.length with
          elements := ((s.push ⟨leaf, some pre.length, [], A, []⟩).get pre.length).elements
            ++ [s.len],
          element_map := dictSet
            ((s.push ⟨leaf, some pre.length, [], A, []⟩).get pre.length).element_map
            ((s.push ⟨leaf, some pre.length, [], A, []⟩).get s.len).name s.len }).get
          (pre.length - 1))).element_map := by
      rw [State.get_set_ne _ _ _ _ (by omega), hpgetlt (pre.length - 1) (by omega),
        hchain (pre.length - 1) (by omega)]
      have : pre.length - 1 + 1 = pre.length := by omega
      simp [dictValues, this]
    rw [attachLoop_stop _ _ _ _ hpar2 hstop]
    exact hfinal

theorem chainShape_seq_aux (rt : String) (pre : List String) (leaf : String) :
    ∀ (rest : List (List (String × PyVal))) (As : List (List (String × PyVal))) (s : State),
      ChainShape s rt pre leaf As → As ≠ [] →
      ChainShape (EasyXML.commitSeq s 0 (pre ++ [leaf]) rest) rt pre leaf (As ++ rest) := by
  intro rest
  induction rest with
  | nil =>
    intro As s hcs hne
    simpa [EasyXML.commitSeq] using hcs
  | cons A rest ih =>
    intro As s hcs hne
    show ChainShape (EasyXML.commitSeq (EasyXML.commitPath s 0 (pre ++ [leaf]) A) 0
      (pre ++ [leaf]) rest) rt pre leaf _
    have h1 := chainShape_step rt pre leaf As A s hcs hne
    have h2 := ih (As ++ [A]) _ h1 (by simp)
    simpa [List.append_assoc] using h2

theorem chainShape_seq (rt : String) (pre : List String) (leaf : String)
    (As : List (List (String × PyVal))) (hne : As ≠ []) :
    ChainShape (EasyXML.commitSeq (EasyXML.init rt) 0 (pre ++ [leaf]) As) rt pre leaf As := by
  cases As with
  | nil => exact absurd rfl hne
  | cons A rest =>
    show ChainShape (EasyXML.commitSeq (EasyXML.commitPath (EasyXML.init rt) 0
      (pre ++ [leaf]) A) 0 (pre ++ [leaf]) rest) rt pre leaf _
    have h1 := chainShape_first rt pre leaf A
    have h2 := chainShape_seq_aux rt pre leaf rest [A] _ h1 (by simp)
    simpa using h2

theorem str_join_cons (x : String) (xs : List String) :
    String.join (x :: xs) = x ++ String.join xs := by
  apply String.ext
  rw [str_join_data, String.data_append, str_join_data]
  simp

theorem str_join_singleton (x : String) : String.join [x] = x := by
  apply String.ext
  rw [str_join_data]
  simp

theorem join_leaf_lines (s : State) (leaf : String) (k : Nat) :
    ∀ (l : List (List (String × PyVal))) (start : Nat),
      (∀ i, i < l.length → s.get (start + i) = ⟨leaf, some k, [], l.getD i [], []⟩) →
      ∀ f ind,
        String.join ((List.range' start l.length).map (fun e => prettyNode s (f + 1) e ind))
          = String.join (l.map (fun B => ind ++ "<" ++ leaf ++ renderAttrs B ++ "/>\n")) := by
  intro l
  induction l with
  | nil => intro start h f ind; rfl
  | cons B rest ih =>
    intro start h f ind
    have hrs : List.range' start (B :: rest).length
        = start :: List.range' (start + 1) rest.length := by
      rw [List.length_cons]
      exact List.range'_succ start rest.length 1
    rw [hrs, List.map_cons, List.map_cons, str_join_cons, str_join_cons]
    have hhead : s.get start = ⟨leaf, some k, [], B, []⟩ := by
      simpa using h 0 (by simp)
    congr 1
    · simp only [prettyNode]
      rw [hhead]
      rfl
    · exact ih (start + 1)
        (fun i hi => by
          have := h (i + 1) (by simp only [List.length_cons]; omega)
          rw [show start + (i + 1) = start + 1 + i by omega] at this
          simpa using this)
        f ind

theorem elements_map_eq (s : State) (leaf : String) (k : Nat) :
    ∀ (l : List (List (String × PyVal))) (start : Nat),
      (∀ i, i < l.length → s.get (start + i) = ⟨leaf, some k, [], l.getD i [], []⟩) →
      (List.range' start l.length).map (fun e => ((s.get e).name, (s.get e).attributes))
        = l.map (fun B => (leaf, B)) := by
  intro l
  induction l with
  | nil => intro start h; rfl
  | cons B rest ih =>
    intro start h
    have hrs : List.range' start (B :: rest).length
        = start :: List.range' (start + 1) rest.length := by
      rw [List.length_cons]
      exact List.range'_succ start rest.length 1
    rw [hrs, List.map_cons, List.map_cons]
    have hhead : s.get start = ⟨leaf, some k, [], B, []⟩ := by
      simpa using h 0 (by simp)
    congr 1
    · rw [hhead]
    · exact ih (start + 1)
        (fun i hi => by
          have := h (i + 1) (by simp only [List.length_cons]; omega)
          rw [show start + (i + 1) = start + 1 + i by omega] at this
          simpa using this)

theorem prettyNode_step (s : State) (f : Nat) (id : Nat) (ind : String) :
    prettyNode s (f + 1) id ind =
      if (s.get id).elements.isEmpty then
        ind ++ "<" ++ (s.get id).name ++ renderAttrs (s.get id).attributes ++ "/>\n"
      else
        ind ++ "<" ++ (s.get id).name ++ renderAttrs (s.get id).attributes ++ ">\n"
          ++ String.join ((s.get id).elements.map (fun e => prettyNode s f e (ind ++ "  ")))
          ++ ind ++ "</" ++ (s.get id).name ++ ">\n" := rfl

theorem prettyNode_chainShape (rt : String) (pre : List String) (leaf : String)
    (As : List (List (String × PyVal))) (s : State)
    (hcs : ChainShape s rt pre leaf As) (hne : As ≠ []) :
    ∀ suffix taken ind f, pre = taken ++ suffix → suffix.length + 2 ≤ f →
      prettyNode s f taken.length ind
        = expRender leaf As (chainName rt pre taken.length) suffix ind := by
  obtain ⟨hlen, hchain, hk, hleaf⟩ := hcs
  obtain ⟨N0, hN⟩ : ∃ m, As.length = m + 1 := by
    cases As with
    | nil => exact absurd rfl hne
    | cons a as => exact ⟨as.length, by simp⟩
  intro suffix
  induction suffix with
  | nil =>
    intro taken ind f hpre hf
    have htl : taken.length = pre.length := by rw [hpre]; simp
    obtain ⟨f1, rfl⟩ : ∃ g, f = g + 1 := ⟨f - 1, by omega⟩
    obtain ⟨f2, rfl⟩ : ∃ g, f1 = g + 1 := ⟨f1 - 1, by omega⟩
    rw [htl]
    have hjoin := join_leaf_lines s leaf pre.length As (pre.length + 2) hleaf f2 (ind ++ "  ")
    rw [prettyNode_step]
    simp only [hk]
    rw [if_neg (by simp [hN, range'_concat_one]), hjoin]
    apply String.ext
    simp [expRender, String.data_append, renderAttrs]
  | cons nm rest ih =>
    intro taken ind f hpre hf
    have hlt : taken.length < pre.length := by
      rw [hpre, List.length_append, List.length_cons]
      omega
    obtain ⟨f1, rfl⟩ : ∃ g, f = g + 1 := ⟨f - 1, by omega⟩
    have hcn : chainName rt pre (taken.length + 1) = nm := by
      unfold chainName
      rw [if_neg (by omega)]
      have hg : pre.getD taken.length "" = nm := by
        rw [hpre]
        exact getD_append_len taken rest nm ""
      simpa using hg
    have hrec := ih (taken ++ [nm]) (ind ++ "  ") f1 (by rw [hpre]; simp)
      (by simp only [List.length_cons] at hf; omega)
    rw [show (taken ++ [nm]).length = taken.length + 1 by simp, hcn] at hrec
    rw [prettyNode_step]
    simp only [hchain taken.length hlt, List.map_cons, List.map_nil]
    rw [if_neg (by simp), str_join_singleton, hrec]
    apply String.ext
    simp [expRender, String.data_append, renderAttrs]

theorem noQ_expRender (leaf : String) (As : List (List (String × PyVal)))
    (hql : NoQ leaf)
    (hqAs : ∀ B ∈ As, ∀ kv ∈ B, NoQ kv.1 ∧ NoQ kv.2.pyStr) :
    ∀ suffix cur ind, NoQ cur → (∀ nm ∈ suffix, NoQ nm) → '?' ∉ ind.data →
      '?' ∉ (expRender leaf As cur suffix ind).data := by
  intro suffix
  induction suffix with
  | nil =>
    intro cur ind hqc hqs hqi
    simp only [expRender, String.data_append, List.mem_append, not_or]
    refine ⟨⟨⟨⟨⟨⟨⟨⟨hqi, by decide⟩, hqc⟩, by decide⟩, ?_⟩, hqi⟩, by decide⟩, hqc⟩, by decide⟩
    intro hm
    rw [str_join_data, List.mem_flatten] at hm
    obtain ⟨l, hl, hml⟩ := hm
    rw [List.mem_map] at hl
    obtain ⟨t, ht, rfl⟩ := hl
    rw [List.mem_map] at ht
    obtain ⟨B, hB, rfl⟩ := ht
    simp only [String.data_append, List.mem_append] at hml
    rcases hml with ((((hm | hm) | hm) | hm) | hm) | hm
    · exact hqi hm
    · exact absurd hm (by decide)
    · exact absurd hm (by decide)
    · exact hql hm
    · exact renderAttrs_noQ B (hqAs B hB) hm
    · exact absurd hm (by decide)
  | cons nm rest ih =>
    intro cur ind hqc hqs hqi
    simp only [expRender, String.data_append, List.mem_append, not_or]
    refine ⟨⟨⟨⟨⟨⟨⟨⟨hqi, by decide⟩, hqc⟩, by decide⟩, ?_⟩, hqi⟩, by decide⟩, hqc⟩, by decide⟩
    exact ih nm (ind ++ "  ") (hqs nm (List.mem_cons_self _ _))
      (fun x hx => hqs x (List.mem_cons_of_mem _ hx))
      (by simp only [String.data_append, List.mem_append, not_or]
          exact ⟨hqi, by decide⟩)

/-- C2: for every root name, prefix path, leaf name, and nonempty sequence
of pairwise-distinct attribute lists (all `?`-free, so the header-stripping
regex cannot touch user data), committing `root.pre₀…preₖ₋₁.leaf(Aᵢ)` once
per list and then serializing yields exactly `As.length` sibling elements
under the shared parent (the last prefix node), all named `leaf`, carrying
`A₁ … A_N` in commit order — both in the arena (the parent's child list maps
to exactly that name/attribute sequence) and in the serialized text (the
nested chain rendering with one self-closing `leaf` line per commit, in
commit order). -/
theorem c2_same_path_commit_multiplicity (rt : String) (pre : List String) (leaf : String)
    (As : List (List (String × PyVal)))
    (hne : As ≠ []) (hdis : As.Pairwise (· ≠ ·))
    (hqrt : NoQ rt) (hqpre : ∀ nm ∈ pre, NoQ nm) (hqleaf : NoQ leaf)
    (hqAs : ∀ B ∈ As, ∀ kv ∈ B, NoQ kv.1 ∧ NoQ kv.2.pyStr) :
    ((EasyXML.commitSeq (EasyXML.init rt) 0 (pre ++ [leaf]) As).get pre.length).elements.map
      (fun e => (((EasyXML.commitSeq (EasyXML.init rt) 0 (pre ++ [leaf]) As).get e).name,
        ((EasyXML.commitSeq (EasyXML.init rt) 0 (pre ++ [leaf]) As).get e).attributes))
      = As.map (fun B => (leaf, B)) ∧
    EasyXML.str (EasyXML.commitSeq (EasyXML.init rt) 0 (pre ++ [leaf]) As) 0
      = pyStrip (expRender leaf As rt pre "") := by
  have hcs := chainShape_seq rt pre leaf As hne
  have hcs' := hcs
  obtain ⟨hlen, hchain, hk, hleaf⟩ := hcs'
  have hrender := prettyNode_chainShape rt pre leaf As _ hcs hne pre [] ""
    ((EasyXML.commitSeq (EasyXML.init rt) 0 (pre ++ [leaf]) As).len)
    (by simp) (by rw [hlen]; omega)
  have hrender' : prettyNode (EasyXML.commitSeq (EasyXML.init rt) 0 (pre ++ [leaf]) As)
      ((EasyXML.commitSeq (EasyXML.init rt) 0 (pre ++ [leaf]) As).len) 0 ""
      = expRender leaf As rt pre "" := by
    simpa [chainName] using hrender
  constructor
  · rw [hk]
    show (List.range' (pre.length + 2) As.length).map _ = _
    exact elements_map_eq _ leaf pre.length As (pre.length + 2) hleaf
  · have hq : '?' ∉ (prettyNode (EasyXML.commitSeq (EasyXML.init rt) 0 (pre ++ [leaf]) As)
        ((EasyXML.commitSeq (EasyXML.init rt) 0 (pre ++ [leaf]) As).len) 0 "").data := by
      rw [hrender']
      exact noQ_expRender leaf As hqleaf hqAs pre rt "" hqrt hqpre (by decide)
    rw [str_eq_of_noQ _ 0 hq, hrender']

/-- C2 witness: two commits of `root.a.c`, with `x=1` then `x=2`, produce
exactly two `c` siblings under `a` in commit order, both in the tree and in
the serialized text. -/
theorem c2_same_path_commit_multiplicity_witness :
    ((EasyXML.commitSeq (EasyXML.init "root") 0 (["a"] ++ ["c"])
        [[("x", PyVal.int 1)], [("x", PyVal.int 2)]]).get (List.length ["a"])).elements.map
      (fun e => (((EasyXML.commitSeq (EasyXML.init "root") 0 (["a"] ++ ["c"])
          [[("x", PyVal.int 1)], [("x", PyVal.int 2)]]).get e).name,
        ((EasyXML.commitSeq (EasyXML.init "root") 0 (["a"] ++ ["c"])
          [[("x", PyVal.int 1)], [("x", PyVal.int 2)]]).get e).attributes))
      = [[("x", PyVal.int 1)], [("x", PyVal.int 2)]].map (fun B => ("c", B)) ∧
    EasyXML.str (EasyXML.commitSeq (EasyXML.init "root") 0 (["a"] ++ ["c"])
        [[("x", PyVal.int 1)], [("x", PyVal.int 2)]]) 0
      = pyStrip (expRender "c" [[("x", PyVal.int 1)], [("x", PyVal.int 2)]] "root" ["a"] "") :=
  c2_same_path_commit_multiplicity "root" ["a"] "c"
    [[("x", PyVal.int 1)], [("x", PyVal.int 2)]]
    (by decide) (by decide) (by decide) (by decide) (by decide) (by decide)

end ClaimC2
/-- Anchor: the example program in the class docstring (easyxml.py lines
29-51) produces, on this embedding, exactly the XML text the docstring
shows. -/
theorem docstring_example_output :
    EasyXML.str
      (EasyXML.commitPath
        (EasyXML.commitPath
          (EasyXML.commitPath
            (EasyXML.commitPath
              (EasyXML.commitPath
                (EasyXML.commitPath
                  (EasyXML.commitPath (EasyXML.init "books")
                    0 ["book"] [("title", PyVal.str "Example A")])
                  0 ["book", "author"]
                  [("name", PyVal.str "John Smith"), ("age", PyVal.int 57)])
                0 ["book", "publisher"] [("name", PyVal.str "Publisher A")])
              0 ["book"] [("title", PyVal.str "Example B")])
            0 ["book", "author"] [("name", PyVal.str "Jane Doe"), ("age", PyVal.int 30)])
          0 ["book", "author"] [("name", PyVal.str "James Cutter"), ("age", PyVal.int 45)])
        0 ["book", "publisher"] [("name", PyVal.str "Publisher B")]) 0
    = "<books>\n  <book title=\"Example A\">\n    <author name=\"John Smith\" age=\"57\"/>\n    <publisher name=\"Publisher A\"/>\n  </book>\n  <book title=\"Example B\">\n    <author name=\"Jane Doe\" age=\"30\"/>\n    <author name=\"James Cutter\" age=\"45\"/>\n    <publisher name=\"Publisher B\"/>\n  </book>\n</books>" := by
  decide
